import Mathlib

/-!
Verification of the CFG / dataflow / dominator core of the cs6120-tasks
repository against its natural-language specification.

The Python sources are shallowly embedded:
  * `src/lesson4/dataflow_framework.py` — namespace `DF`
    (`Statement`, `BasicBlock`, `CFG`, `worklist_solve`,
     `compute_def_sites`, `reaching_definitions_problem`);
  * `src/lesson5/dominators.py`       — namespace `Dom`
    (`CFG`, `_reachable_from_entry`, `_reverse_post_order`,
     `compute_dominators`, `immediate_dominators`);
  * `src/lesson4/reaching_def.py` and `src/lesson5/run_on_bril.py`
    (their `split_into_blocks` pipelines are line-for-line identical)
    — namespace `RD` (`label_positions`, `leaders`,
     `block_index_of_pos`, `split_into_blocks`, `assign_def_ids`,
     `union_var_maps`, `run_copy_aware_rd`);
  * `src/lesson4/run_bril_dataflow.py`  — namespace `RB`
    (`bril_ins_to_line`, `function_to_blocks`).

Modelling conventions:
  * Python `str` is Lean `String`; character-level operations are carried
    out on `String.data` so that everything reduces in the kernel.
  * Python `dict` is an association list updated in insertion order
    (`pyDictInsert`); Python `set` is either a duplicate-free `List`
    (when the source iterates over it) or a `Finset` (when only
    extensional equality and algebra are needed).  Python set iteration
    order is unspecified; the embedding fixes the deterministic order in
    which elements were inserted, and every theorem proved below is
    independent of that choice.
  * Unbounded `while` loops become fuel-indexed recursions returning
    `Option` (`none` = fuel exhausted, which real runs never hit).
  * Python exceptions (`KeyError`, `IndexError`, `raise ValueError`)
    become an `Except String` channel.
-/

/-! ### Generic helpers (Python dict / sorted / identifier lexing) -/

/-- Python `d[k] = v` on a dict represented as an association list:
replace the binding if the key is present, otherwise append it
(Python dicts preserve insertion order). -/
def pyDictInsert {α : Type} (k : String) (v : α) : List (String × α) → List (String × α)
  | [] => [(k, v)]
  | (k', v') :: rest =>
    if k' = k then (k, v) :: rest else (k', v') :: pyDictInsert k v rest

/-- Keys of an association list. -/
def alKeys {α : Type} (l : List (String × α)) : List String := l.map Prod.fst

theorem lookup_pyDictInsert {α : Type} (k x : String) (v : α) (l : List (String × α)) :
    List.lookup x (pyDictInsert k v l) = if x = k then some v else List.lookup x l := by
  induction l with
  | nil =>
    by_cases hx : x = k
    · have hb : (x == k) = true := beq_iff_eq.mpr hx
      simp [pyDictInsert, List.lookup, hb, hx]
    · have hb : (x == k) = false := beq_eq_false_iff_ne.mpr hx
      simp [pyDictInsert, List.lookup, hb, hx]
  | cons hd tl ih =>
    obtain ⟨k', v'⟩ := hd
    by_cases hk : k' = k
    · subst hk
      rw [show pyDictInsert k' v ((k', v') :: tl) = (k', v) :: tl by simp [pyDictInsert]]
      by_cases hx : x = k'
      · have hb : (x == k') = true := beq_iff_eq.mpr hx
        simp [List.lookup, hb, hx]
      · have hb : (x == k') = false := beq_eq_false_iff_ne.mpr hx
        simp [List.lookup, hb, hx]
    · rw [show pyDictInsert k v ((k', v') :: tl) = (k', v') :: pyDictInsert k v tl by
        simp [pyDictInsert, hk]]
      by_cases hx : x = k'
      · have hb : (x == k') = true := beq_iff_eq.mpr hx
        have h2 : ¬ x = k := fun h => hk (hx.symm.trans h)
        simp [List.lookup, hb, h2]
      · have hb : (x == k') = false := beq_eq_false_iff_ne.mpr hx
        simp [List.lookup, hb, ih]

theorem mem_alKeys_pyDictInsert {α : Type} (k x : String) (v : α) (l : List (String × α)) :
    x ∈ alKeys (pyDictInsert k v l) ↔ x = k ∨ x ∈ alKeys l := by
  induction l with
  | nil => simp [pyDictInsert, alKeys]
  | cons hd tl ih =>
    obtain ⟨k', v'⟩ := hd
    by_cases hk : k' = k
    · subst hk
      rw [show pyDictInsert k' v ((k', v') :: tl) = (k', v) :: tl by simp [pyDictInsert]]
      simp only [alKeys, List.map_cons, List.mem_cons]
      tauto
    · rw [show pyDictInsert k v ((k', v') :: tl) = (k', v') :: pyDictInsert k v tl by
        simp [pyDictInsert, hk]]
      simp only [alKeys, List.map_cons, List.mem_cons] at ih ⊢
      tauto

/-- Lexicographic `<` on strings via their character lists (Python string
comparison is code-point lexicographic). -/
def strLtB : List Char → List Char → Bool
  | [], [] => false
  | [], _ :: _ => true
  | _ :: _, [] => false
  | c :: cs, d :: ds => if c < d then true else if d < c then false else strLtB cs ds

/-- Python `sorted` on a list of strings: insertion sort, stable,
by code-point order. -/
def insertStr (x : String) : List String → List String
  | [] => [x]
  | y :: ys => if strLtB y.data x.data then y :: insertStr x ys else x :: y :: ys

/-- Python `sorted(iterable)` for strings. -/
def pySorted : List String → List String
  | [] => []
  | x :: xs => insertStr x (pySorted xs)

theorem mem_insertStr (a x : String) (l : List String) :
    a ∈ insertStr x l ↔ a = x ∨ a ∈ l := by
  induction l with
  | nil => simp [insertStr]
  | cons y ys ih =>
    simp only [insertStr]
    split
    · rw [List.mem_cons, ih, List.mem_cons]
      tauto
    · rw [List.mem_cons]

theorem mem_pySorted (a : String) (l : List String) : a ∈ pySorted l ↔ a ∈ l := by
  induction l with
  | nil => simp [pySorted]
  | cons x xs ih => simp [pySorted, mem_insertStr, ih]

/-! ### `Statement` (src/lesson4/dataflow_framework.py, lines 5–28) -/

namespace DF

/-- Python's default `str.strip` whitespace characters. -/
def isPySpace (c : Char) : Bool :=
  c = ' ' ∨ c = '\t' ∨ c = '\n' ∨ c = '\x0d' ∨ c = '\x0b' ∨ c = '\x0c'

/-- `str.strip()`: drop leading and trailing whitespace. -/
def pyStrip (s : String) : String :=
  String.mk (((s.data.dropWhile isPySpace).reverse.dropWhile isPySpace).reverse)

/-- First character of the regex class `[A-Za-z_]` used by `_vars_in`. -/
def isIdentStart (c : Char) : Bool := c.isAlpha || c = '_'

/-- Continuation class `\w` = `[A-Za-z0-9_]` (the identifiers occurring in
this repository are ASCII, where Python's `\w` coincides with this). -/
def isIdentCont (c : Char) : Bool := c.isAlphanum || c = '_'

/-- One left-to-right pass of `re.findall(r"[A-Za-z_]\w*", ...)`:
maximal-munch identifier tokens.  The optional accumulator holds the
(reversed) token currently being read. -/
def tokensAux : List Char → Option (List Char) → List (List Char)
  | [], none => []
  | [], some t => [t.reverse]
  | c :: cs, none =>
    if isIdentStart c then tokensAux cs (some [c]) else tokensAux cs none
  | c :: cs, some t =>
    if isIdentCont c then tokensAux cs (some (c :: t))
    else t.reverse :: tokensAux cs none

/-- `Statement._vars_in`: replace `[`, `]`, `*` by spaces, then collect the
identifier tokens.  (Python returns a `set`; the embedding returns the
token list in order of first scan — callers that need set semantics take
`.toFinset`.) -/
def vars_in (expr : String) : List String :=
  (tokensAux (expr.data.map fun c => if c = '[' ∨ c = ']' ∨ c = '*' then ' ' else c) none).map
    String.mk

/-- A single pseudo-3AC statement. -/
structure Statement where
  text : String
deriving DecidableEq, Repr

/-- `lhs.startswith("*") or lhs.startswith("[")`. -/
def startsDeref (s : String) : Bool :=
  match s.data with
  | [] => false
  | c :: _ => c = '*' ∨ c = '['

/-- Left part of Python `t.split("=", 1)`. -/
def splitEqL (t : String) : String := String.mk (t.data.takeWhile (· ≠ '='))

/-- Right part of Python `t.split("=", 1)` (everything after the first `=`). -/
def splitEqR (t : String) : String := String.mk ((t.data.dropWhile (· ≠ '=')).tail)

/-- `Statement.defs` (dataflow_framework.py lines 8–15): the assigned name,
unless the left-hand side is a dereference/index target. -/
def Statement.defs (s : Statement) : List String :=
  let t := pyStrip s.text
  if '=' ∈ t.data then
    let lhs := pyStrip (splitEqL t)
    if startsDeref lhs then [] else [lhs]
  else []

/-- `Statement.uses` (dataflow_framework.py lines 16–22). -/
def Statement.uses (s : Statement) : List String :=
  let t := pyStrip s.text
  if '=' ∈ t.data then
    let lhs := pyStrip (splitEqL t)
    let rhs := pyStrip (splitEqR t)
    if startsDeref lhs then vars_in lhs ++ vars_in rhs else vars_in rhs
  else []

/-- A Python identifier shape: nonempty, `[A-Za-z_]` head, `\w` tail. -/
def isIdentChars : List Char → Bool
  | [] => false
  | c :: t => isIdentStart c && t.all isIdentCont

theorem identStart_cont (c : Char) (h : isIdentStart c = true) : isIdentCont c = true := by
  simp only [isIdentStart, Bool.or_eq_true] at h
  rcases h with h | h
  · simp [isIdentCont, Char.isAlphanum, h]
  · simp [isIdentCont, h]

theorem identCont_ne_eq (c : Char) (h : isIdentCont c = true) : c ≠ '=' := by
  intro hEq
  subst hEq
  exact absurd h (by decide)

theorem identCont_not_space (c : Char) (h : isIdentCont c = true) : isPySpace c = false := by
  by_contra hc
  have h1 : isPySpace c = true := by
    cases hps : isPySpace c
    · exact absurd hps hc
    · rfl
  have h2 : c = ' ' ∨ c = '\t' ∨ c = '\n' ∨ c = '\x0d' ∨ c = '\x0b' ∨ c = '\x0c' :=
    of_decide_eq_true h1
  rcases h2 with h3 | h3 | h3 | h3 | h3 | h3 <;> (subst h3; exact absurd h (by decide))

theorem identCont_not_bracket (c : Char) (h : isIdentCont c = true) :
    c ≠ '[' ∧ c ≠ ']' ∧ c ≠ '*' := by
  refine ⟨?_, ?_, ?_⟩ <;> (intro hEq; subst hEq; exact absurd h (by decide))

/-! Scanning lemmas for `tokensAux` (maximal-munch identifier lexing). -/

theorem tokensAux_cont_word (t : List Char) (acc : List Char) (rest : List Char)
    (h : ∀ x ∈ t, isIdentCont x = true) :
    tokensAux (t ++ ' ' :: rest) (some acc) = (acc.reverse ++ t) :: tokensAux rest none := by
  induction t generalizing acc with
  | nil => simp [tokensAux, (by decide : isIdentCont ' ' = false)]
  | cons c cs ih =>
    have hc : isIdentCont c = true := h c (List.mem_cons_self c cs)
    have hcs : ∀ x ∈ cs, isIdentCont x = true := fun x hx => h x (List.mem_cons_of_mem c hx)
    simp only [List.cons_append, tokensAux, hc, if_pos, List.append_eq]
    rw [ih (c :: acc) hcs]
    simp

theorem tokensAux_cont_end (t : List Char) (acc : List Char)
    (h : ∀ x ∈ t, isIdentCont x = true) :
    tokensAux t (some acc) = [acc.reverse ++ t] := by
  induction t generalizing acc with
  | nil => simp [tokensAux]
  | cons c cs ih =>
    have hc : isIdentCont c = true := h c (List.mem_cons_self c cs)
    have hcs : ∀ x ∈ cs, isIdentCont x = true := fun x hx => h x (List.mem_cons_of_mem c hx)
    simp only [tokensAux, hc, if_pos]
    rw [ih (c :: acc) hcs]
    simp

theorem tokensAux_word (c : Char) (t rest : List Char) (hc : isIdentStart c = true)
    (h : ∀ x ∈ t, isIdentCont x = true) :
    tokensAux ((c :: t) ++ ' ' :: rest) none = (c :: t) :: tokensAux rest none := by
  simp only [List.cons_append, tokensAux, hc, if_pos, List.append_eq]
  rw [tokensAux_cont_word t [c] rest h]
  simp

theorem tokensAux_word_end (c : Char) (t : List Char) (hc : isIdentStart c = true)
    (h : ∀ x ∈ t, isIdentCont x = true) :
    tokensAux (c :: t) none = [c :: t] := by
  simp only [tokensAux, hc, if_pos]
  rw [tokensAux_cont_end t [c] h]
  simp

theorem tokensAux_space (rest : List Char) :
    tokensAux (' ' :: rest) none = tokensAux rest none := by
  simp [tokensAux, isIdentStart]

/-! Helpers for `takeWhile` / `dropWhile` over concatenations. -/

theorem takeWhile_append_all {p : Char → Bool} (l1 l2 : List Char)
    (h : ∀ c ∈ l1, p c = true) :
    (l1 ++ l2).takeWhile p = l1 ++ l2.takeWhile p := by
  induction l1 with
  | nil => simp
  | cons c cs ih =>
    have hc := h c (List.mem_cons_self c cs)
    simp only [List.cons_append, List.takeWhile_cons, hc, if_pos]
    rw [ih fun x hx => h x (List.mem_cons_of_mem c hx)]

theorem dropWhile_append_all {p : Char → Bool} (l1 l2 : List Char)
    (h : ∀ c ∈ l1, p c = true) :
    (l1 ++ l2).dropWhile p = l2.dropWhile p := by
  induction l1 with
  | nil => simp
  | cons c cs ih =>
    have hc := h c (List.mem_cons_self c cs)
    simp only [List.cons_append, List.dropWhile_cons, hc, if_pos]
    exact ih fun x hx => h x (List.mem_cons_of_mem c hx)

theorem takeWhile_all {p : Char → Bool} (l : List Char) (h : ∀ c ∈ l, p c = true) :
    l.takeWhile p = l := by
  have := takeWhile_append_all l [] h
  simpa using this

theorem dropWhile_all_false {p : Char → Bool} (l : List Char) (h : ∀ c ∈ l, p c = false) :
    l.dropWhile p = l := by
  cases l with
  | nil => rfl
  | cons c cs =>
    have hc := h c (List.mem_cons_self c cs)
    simp [List.dropWhile_cons, hc]

/-- `pyStrip` is the identity on character lists with no leading or
trailing Python whitespace. -/
theorem pyStrip_no_space (l : List Char) (h : ∀ c ∈ l, isPySpace c = false) :
    pyStrip (String.mk l) = String.mk l := by
  unfold pyStrip
  rw [dropWhile_all_false l h]
  rw [dropWhile_all_false l.reverse fun c hc => h c (List.mem_reverse.mp hc)]
  simp

theorem pyStrip_right_space (l : List Char) (hne : l ≠ [])
    (h : ∀ c ∈ l, isPySpace c = false) :
    pyStrip (String.mk (l ++ [' '])) = String.mk l := by
  unfold pyStrip
  have hdrop : (l ++ [' ']).dropWhile isPySpace = l ++ [' '] := by
    cases l with
    | nil => exact absurd rfl hne
    | cons c cs =>
      have hc := h c (List.mem_cons_self c cs)
      simp [List.dropWhile_cons, hc]
  rw [hdrop]
  rw [List.reverse_append]
  simp only [List.reverse_singleton, List.singleton_append, List.dropWhile_cons]
  rw [if_pos (by decide : isPySpace ' ' = true)]
  rw [dropWhile_all_false l.reverse fun c hc => h c (List.mem_reverse.mp hc)]
  simp

theorem pyStrip_left_space (l : List Char) (h : ∀ c ∈ l, isPySpace c = false) :
    pyStrip (String.mk (' ' :: l)) = String.mk l := by
  unfold pyStrip
  simp only [List.dropWhile_cons]
  rw [if_pos (by decide : isPySpace ' ' = true)]
  rw [dropWhile_all_false l h]
  rw [dropWhile_all_false l.reverse fun c hc => h c (List.mem_reverse.mp hc)]
  simp

/-! ### Blocks, CFG and the worklist engine
(src/lesson4/dataflow_framework.py, lines 30–93) -/

/-- `BasicBlock` (dataflow_framework.py lines 30–41).  The Python `preds`
and `succs` sets are duplicate-free lists in insertion order. -/
structure BasicBlock where
  bid : String
  stmts : List Statement
  preds : List String
  succs : List String
deriving DecidableEq, Repr

/-- `CFG` (dataflow_framework.py lines 43–47); `blocks` is the Python dict
in insertion order.  The Python field `exit` is called `exitB` here. -/
structure CFG where
  blocks : List (String × BasicBlock)
  entry : String
  exitB : String
deriving DecidableEq, Repr

/-- `DataflowProblem` (dataflow_framework.py lines 57–63); a `None`
`init_map` is the empty list. -/
structure DataflowProblem (α : Type) where
  direction : String
  top : α
  meet : List α → α
  transfer : BasicBlock → α → α
  init_map : List (String × α)

/-- The `while wl:` loop of `worklist_solve` (dataflow_framework.py lines
75–92), fuel-indexed.  `none` = fuel ran out; `some (.error e)` = a Python
exception (`KeyError` on a missing map key, or the `ValueError` raised for
an unrecognized direction); `some (.ok (inm, outm))` = normal return. -/
def worklist_loop {α : Type} [DecidableEq α] (prob : DataflowProblem α)
    (blocks : List (String × BasicBlock)) :
    Nat → List String → List (String × α) → List (String × α) →
    Option (Except String (List (String × α) × List (String × α)))
  | _, [], inm, outm => some (Except.ok (inm, outm))
  | 0, _ :: _, _, _ => none
  | fuel + 1, b :: rest, inm, outm =>
    match List.lookup b blocks with
    | none => some (Except.error "KeyError")
    | some blk =>
      if prob.direction = "forward" then
        match (if blk.preds.isEmpty then List.lookup b inm
               else (blk.preds.mapM fun p => List.lookup p outm).map prob.meet),
              List.lookup b outm with
        | some in_val, some out_old =>
          worklist_loop prob blocks fuel
            (if prob.transfer blk in_val = out_old then rest else rest ++ blk.succs)
            (pyDictInsert b in_val inm)
            (pyDictInsert b (prob.transfer blk in_val) outm)
        | _, _ => some (Except.error "KeyError")
      else if prob.direction = "backward" then
        match (if blk.succs.isEmpty then List.lookup b outm
               else (blk.succs.mapM fun s => List.lookup s inm).map prob.meet),
              List.lookup b inm with
        | some out_val, some in_old =>
          worklist_loop prob blocks fuel
            (if prob.transfer blk out_val = in_old then rest else rest ++ blk.preds)
            (pyDictInsert b (prob.transfer blk out_val) inm)
            (pyDictInsert b out_val outm)
        | _, _ => some (Except.error "KeyError")
      else some (Except.error "direction must be forward or backward")

/-- The in/out map of `worklist_solve` before the loop runs: every block
key bound to `top`, then the `init_map` overrides applied (Python only
overrides keys already present). -/
def init_vals {α : Type} (cfg : CFG) (prob : DataflowProblem α) : List (String × α) :=
  prob.init_map.foldl
    (fun m kv => if (List.lookup kv.1 m).isSome then pyDictInsert kv.1 kv.2 m else m)
    (cfg.blocks.map fun bv => (bv.1, prob.top))

/-- `worklist_solve` (dataflow_framework.py lines 65–93): initialize every
node's IN and OUT to `top`, apply the `init_map` overrides (only to keys
already present), then run the worklist over all blocks. -/
def worklist_solve {α : Type} [DecidableEq α] (fuel : Nat) (cfg : CFG)
    (prob : DataflowProblem α) :
    Option (Except String (List (String × α) × List (String × α))) :=
  worklist_loop prob cfg.blocks fuel (cfg.blocks.map Prod.fst)
    (init_vals cfg prob) (init_vals cfg prob)

/-- A dataflow problem whose `direction` is neither `"forward"` nor
`"backward"`. -/
def sidewaysProb : DataflowProblem (Finset String) :=
  DataflowProblem.mk "sideways" ∅ (fun sets => sets.foldl (· ∪ ·) ∅) (fun _ v => v) []

/-- A CFG with zero blocks. -/
def emptyCFG : CFG := CFG.mk [] "B0" "EXIT"

/-- A CFG with a single isolated block. -/
def oneBlockCFG : CFG := CFG.mk [("B0", BasicBlock.mk "B0" [] [] [])] "B0" "EXIT"

end DF

/-- C4, counterexample.  The claim quantifies over every CFG "including
one with zero blocks"; but on a zero-block CFG the worklist is empty, the
loop body that raises the `ValueError` is never entered, and
`worklist_solve` returns normally even though the direction is invalid. -/
theorem C4_counterexample :
    DF.sidewaysProb.direction ≠ "forward" ∧
    DF.sidewaysProb.direction ≠ "backward" ∧
    DF.worklist_solve 5 DF.emptyCFG DF.sidewaysProb = some (Except.ok ([], [])) ∧
    ∀ e, DF.worklist_solve 5 DF.emptyCFG DF.sidewaysProb ≠ some (Except.error e) := by
  refine ⟨by decide, by decide, rfl, ?_⟩
  intro e h
  rw [show DF.worklist_solve 5 DF.emptyCFG DF.sidewaysProb
        = some (Except.ok ([], [])) from rfl] at h
  exact Except.noConfusion (Option.some.inj h)

/-- C4, amended: on every CFG with at least one block, an unrecognized
direction makes `worklist_solve` stop with the invalid-configuration
error on the first worklist iteration; no meet or transfer work is done
(the outcome is independent of the `meet` and `transfer` functions).  On
a zero-block CFG the loop never runs and no error is reported. -/
theorem C4_amended {α : Type} [DecidableEq α] (fuel : Nat) (cfg : DF.CFG)
    (prob : DF.DataflowProblem α)
    (hfuel : 1 ≤ fuel) (hne : cfg.blocks ≠ [])
    (hdir1 : prob.direction ≠ "forward") (hdir2 : prob.direction ≠ "backward") :
    DF.worklist_solve fuel cfg prob =
      some (Except.error "direction must be forward or backward") ∧
    ∀ (meet2 : List α → α) (transfer2 : DF.BasicBlock → α → α),
      DF.worklist_solve fuel cfg
        (DF.DataflowProblem.mk prob.direction prob.top meet2 transfer2 prob.init_map) =
      DF.worklist_solve fuel cfg prob := by
  obtain ⟨hd, tl, hblocks⟩ : ∃ hd tl, cfg.blocks = hd :: tl := by
    cases hb : cfg.blocks with
    | nil => exact absurd hb hne
    | cons hd tl => exact ⟨hd, tl, rfl⟩
  obtain ⟨f, rfl⟩ : ∃ f, fuel = f + 1 := by
    cases fuel with
    | zero => omega
    | succ f => exact ⟨f, rfl⟩
  constructor
  · unfold DF.worklist_solve
    rw [hblocks]
    simp only [List.map_cons]
    unfold DF.worklist_loop
    simp only [List.lookup, beq_self_eq_true]
    rw [if_neg hdir1, if_neg hdir2]
  · intro meet2 transfer2
    unfold DF.worklist_solve
    rw [hblocks]
    simp only [List.map_cons]
    unfold DF.worklist_loop
    simp only [List.lookup, beq_self_eq_true]
    rw [if_neg hdir1, if_neg hdir2, if_neg hdir1, if_neg hdir2]

/-- Closed witness for `C4_amended`. -/
theorem C4_amended_witness :
    DF.worklist_solve 3 DF.oneBlockCFG DF.sidewaysProb =
      some (Except.error "direction must be forward or backward") :=
  (C4_amended 3 DF.oneBlockCFG DF.sidewaysProb (by decide) (by decide) (by decide)
    (by decide)).1

namespace DF

theorem lookup_mem {α : Type} {x : String} {v : α} :
    ∀ {l : List (String × α)}, List.lookup x l = some v → (x, v) ∈ l := by
  intro l
  induction l with
  | nil => intro h; simp [List.lookup] at h
  | cons hd tl ih =>
    obtain ⟨k, w⟩ := hd
    intro h
    by_cases hx : x = k
    · subst hx
      simp only [List.lookup, beq_self_eq_true] at h
      rw [Option.some.inj h]
      exact List.mem_cons_self _ _
    · have hb : (x == k) = false := beq_eq_false_iff_ne.mpr hx
      simp only [List.lookup, hb] at h
      exact List.mem_cons_of_mem _ (ih h)

theorem lookup_mem_keys {α : Type} {x : String} {v : α} {l : List (String × α)}
    (h : List.lookup x l = some v) : x ∈ l.map Prod.fst := by
  have := lookup_mem h
  exact List.mem_map.mpr ⟨(x, v), this, rfl⟩

theorem mapM_lookup_congr {α : Type} (ps : List String) (m1 m2 : List (String × α))
    (h : ∀ p ∈ ps, List.lookup p m2 = List.lookup p m1) :
    ps.mapM (fun p => List.lookup p m2) = ps.mapM (fun p => List.lookup p m1) := by
  induction ps with
  | nil => rfl
  | cons p ps ih =>
    rw [List.mapM_cons, List.mapM_cons, h p (List.mem_cons_self p ps),
      ih fun q hq => h q (List.mem_cons_of_mem p hq)]

/-- Invariant of the forward worklist loop: every block not on the
worklist already satisfies the forward dataflow equations. -/
def ForwardEqs {α : Type} (prob : DataflowProblem α) (blocks : List (String × BasicBlock))
    (wl : List String) (inm outm : List (String × α)) : Prop :=
  ∀ b blk, List.lookup b blocks = some blk → b ∉ wl → blk.preds ≠ [] →
    ∃ vs, blk.preds.mapM (fun p => List.lookup p outm) = some vs ∧
      List.lookup b inm = some (prob.meet vs) ∧
      List.lookup b outm = some (prob.transfer blk (prob.meet vs))

/-- A block with no predecessors keeps its initial (seeded) IN value. -/
def NoPredInit {α : Type} (blocks : List (String × BasicBlock))
    (init_inm inm : List (String × α)) : Prop :=
  ∀ b blk, List.lookup b blocks = some blk → blk.preds = [] →
    List.lookup b inm = List.lookup b init_inm

/-- Predecessor/successor consistency, as `make_cfg` guarantees: whenever
`b` is recorded as a predecessor of `c`, `c` is recorded as a successor of
`b`. -/
def ConsistentBlocks (blocks : List (String × BasicBlock)) : Prop :=
  ∀ bv ∈ blocks, ∀ cv ∈ blocks,
    (bv : String × BasicBlock).1 ∈ (cv : String × BasicBlock).2.preds →
      cv.1 ∈ bv.2.succs

/-- Loop invariant preservation: a terminating forward worklist run turns
the invariant at entry into the dataflow equations everywhere. -/
theorem worklist_loop_fixpoint {α : Type} [DecidableEq α] (prob : DataflowProblem α)
    (blocks : List (String × BasicBlock)) (init_inm : List (String × α))
    (hdir : prob.direction = "forward") (hcons : ConsistentBlocks blocks) :
    ∀ (fuel : Nat) (wl : List String) (inm outm : List (String × α))
      (rin rout : List (String × α)),
      worklist_loop prob blocks fuel wl inm outm = some (Except.ok (rin, rout)) →
      ForwardEqs prob blocks wl inm outm →
      NoPredInit blocks init_inm inm →
      ForwardEqs prob blocks [] rin rout ∧ NoPredInit blocks init_inm rin := by
  intro fuel
  induction fuel with
  | zero =>
    intro wl inm outm rin rout hok hinv hnp
    cases wl with
    | nil =>
      simp only [worklist_loop, Option.some.injEq, Except.ok.injEq, Prod.mk.injEq] at hok
      obtain ⟨h1, h2⟩ := hok
      subst h1; subst h2
      exact ⟨fun b blk hb _ => hinv b blk hb (by simp), hnp⟩
    | cons b rest => simp [worklist_loop] at hok
  | succ f ih =>
    intro wl inm outm rin rout hok hinv hnp
    cases wl with
    | nil =>
      simp only [worklist_loop, Option.some.injEq, Except.ok.injEq, Prod.mk.injEq] at hok
      obtain ⟨h1, h2⟩ := hok
      subst h1; subst h2
      exact ⟨fun b blk hb _ => hinv b blk hb (by simp), hnp⟩
    | cons b rest =>
      rw [show worklist_loop prob blocks (f + 1) (b :: rest) inm outm =
            (match List.lookup b blocks with
             | none => some (Except.error "KeyError")
             | some blk =>
               if prob.direction = "forward" then
                 match (if blk.preds.isEmpty then List.lookup b inm
                        else (blk.preds.mapM fun p => List.lookup p outm).map prob.meet),
                       List.lookup b outm with
                 | some in_val, some out_old =>
                   worklist_loop prob blocks f
                     (if prob.transfer blk in_val = out_old then rest
                      else rest ++ blk.succs)
                     (pyDictInsert b in_val inm)
                     (pyDictInsert b (prob.transfer blk in_val) outm)
                 | _, _ => some (Except.error "KeyError")
               else if prob.direction = "backward" then
                 match (if blk.succs.isEmpty then List.lookup b outm
                        else (blk.succs.mapM fun s => List.lookup s inm).map prob.meet),
                       List.lookup b inm with
                 | some out_val, some in_old =>
                   worklist_loop prob blocks f
                     (if prob.transfer blk out_val = in_old then rest
                      else rest ++ blk.preds)
                     (pyDictInsert b (prob.transfer blk out_val) inm)
                     (pyDictInsert b out_val outm)
                 | _, _ => some (Except.error "KeyError")
               else some (Except.error "direction must be forward or backward")) from rfl]
        at hok
      cases hlk : List.lookup b blocks with
      | none =>
        simp only [hlk] at hok
        exact absurd hok (by simp)
      | some blk =>
        simp only [hlk] at hok
        rw [if_pos hdir] at hok
        cases hOut : List.lookup b outm with
        | none =>
          rcases hsc : (if blk.preds.isEmpty then List.lookup b inm
              else (blk.preds.mapM fun p => List.lookup p outm).map prob.meet) with _ | iv <;>
            (simp only [hsc, hOut] at hok; exact absurd hok (by simp))
        | some out_old =>
          by_cases hpe : blk.preds.isEmpty
          · -- no predecessors: in_val is the current IN of b
            rw [if_pos hpe] at hok
            cases hIn : List.lookup b inm with
            | none =>
              simp only [hIn, hOut] at hok
              exact absurd hok (by simp)
            | some in_val =>
              simp only [hIn, hOut] at hok
              have hpnil : blk.preds = [] := List.isEmpty_iff.mp hpe
              refine ih _ _ _ _ _ hok ?_ ?_
              · -- new ForwardEqs
                intro c blkc hlkc hcnot hcpreds
                by_cases hcb : c = b
                · subst hcb
                  have : blkc = blk := Option.some.inj (hlkc.symm.trans hlk)
                  subst this
                  exact absurd hpnil hcpreds
                · have hcrest : c ∉ b :: rest := by
                    intro hmem
                    rcases List.mem_cons.mp hmem with h | h
                    · exact hcb h
                    · apply hcnot
                      by_cases hch : prob.transfer blk in_val = out_old
                      · rw [if_pos hch]; exact h
                      · rw [if_neg hch]; exact List.mem_append_left _ h
                  obtain ⟨vs0, hm0, hi0, ho0⟩ := hinv c blkc hlkc hcrest hcpreds
                  have hcongr : ∀ p ∈ blkc.preds,
                      List.lookup p (pyDictInsert b (prob.transfer blk in_val) outm) =
                      List.lookup p outm := by
                    intro p hp
                    by_cases hpb : p = b
                    · subst hpb
                      have hcsucc : c ∈ blk.succs :=
                        hcons (p, blk) (lookup_mem hlk) (c, blkc) (lookup_mem hlkc) hp
                      by_cases hch : prob.transfer blk in_val = out_old
                      · rw [lookup_pyDictInsert, if_pos rfl, hch, hOut]
                      · exact absurd (by rw [if_neg hch]; exact List.mem_append_right _ hcsucc)
                          hcnot
                    · rw [lookup_pyDictInsert, if_neg hpb]
                  refine ⟨vs0, ?_, ?_, ?_⟩
                  · rw [mapM_lookup_congr _ _ _ hcongr]; exact hm0
                  · rw [lookup_pyDictInsert, if_neg hcb]; exact hi0
                  · rw [lookup_pyDictInsert, if_neg hcb]; exact ho0
              · -- new NoPredInit
                intro c blkc hlkc hpnil2
                by_cases hcb : c = b
                · subst hcb
                  have : blkc = blk := Option.some.inj (hlkc.symm.trans hlk)
                  subst this
                  rw [lookup_pyDictInsert, if_pos rfl, ← hIn]
                  exact hnp _ _ hlk hpnil2
                · rw [lookup_pyDictInsert, if_neg hcb]
                  exact hnp _ _ hlkc hpnil2
          · -- at least one predecessor: in_val = meet of predecessor OUTs
            rw [if_neg hpe] at hok
            cases hmm : blk.preds.mapM (fun p => List.lookup p outm) with
            | none =>
              simp only [hmm, Option.map, hOut] at hok
              exact absurd hok (by simp)
            | some vs0 =>
              simp only [hmm, Option.map, hOut] at hok
              refine ih _ _ _ _ _ hok ?_ ?_
              · -- new ForwardEqs
                intro c blkc hlkc hcnot hcpreds
                by_cases hcb : c = b
                · subst hcb
                  have : blkc = blk := Option.some.inj (hlkc.symm.trans hlk)
                  subst this
                  have hcongr : ∀ p ∈ blkc.preds,
                      List.lookup p (pyDictInsert c (prob.transfer blkc (prob.meet vs0)) outm) =
                      List.lookup p outm := by
                    intro p hp
                    by_cases hpb : p = c
                    · subst hpb
                      have hcsucc : p ∈ blkc.succs :=
                        hcons (p, blkc) (lookup_mem hlk) (p, blkc) (lookup_mem hlk) hp
                      by_cases hch : prob.transfer blkc (prob.meet vs0) = out_old
                      · rw [lookup_pyDictInsert, if_pos rfl, hch, hOut]
                      · exact absurd (by rw [if_neg hch]; exact List.mem_append_right _ hcsucc)
                          hcnot
                    · rw [lookup_pyDictInsert, if_neg hpb]
                  refine ⟨vs0, ?_, ?_, ?_⟩
                  · rw [mapM_lookup_congr _ _ _ hcongr]; exact hmm
                  · rw [lookup_pyDictInsert, if_pos rfl]
                  · rw [lookup_pyDictInsert, if_pos rfl]
                · have hcrest : c ∉ b :: rest := by
                    intro hmem
                    rcases List.mem_cons.mp hmem with h | h
                    · exact hcb h
                    · apply hcnot
                      by_cases hch : prob.transfer blk (prob.meet vs0) = out_old
                      · rw [if_pos hch]; exact h
                      · rw [if_neg hch]; exact List.mem_append_left _ h
                  obtain ⟨vs1, hm1, hi1, ho1⟩ := hinv c blkc hlkc hcrest hcpreds
                  have hcongr : ∀ p ∈ blkc.preds,
                      List.lookup p (pyDictInsert b (prob.transfer blk (prob.meet vs0)) outm) =
                      List.lookup p outm := by
                    intro p hp
                    by_cases hpb : p = b
                    · subst hpb
                      have hcsucc : c ∈ blk.succs :=
                        hcons (p, blk) (lookup_mem hlk) (c, blkc) (lookup_mem hlkc) hp
                      by_cases hch : prob.transfer blk (prob.meet vs0) = out_old
                      · rw [lookup_pyDictInsert, if_pos rfl, hch, hOut]
                      · exact absurd (by rw [if_neg hch]; exact List.mem_append_right _ hcsucc)
                          hcnot
                    · rw [lookup_pyDictInsert, if_neg hpb]
                  refine ⟨vs1, ?_, ?_, ?_⟩
                  · rw [mapM_lookup_congr _ _ _ hcongr]; exact hm1
                  · rw [lookup_pyDictInsert, if_neg hcb]; exact hi1
                  · rw [lookup_pyDictInsert, if_neg hcb]; exact ho1
              · -- new NoPredInit
                intro c blkc hlkc hpnil2
                by_cases hcb : c = b
                · subst hcb
                  have : blkc = blk := Option.some.inj (hlkc.symm.trans hlk)
                  subst this
                  exact absurd (List.isEmpty_iff.mpr hpnil2) (by simpa using hpe)
                · rw [lookup_pyDictInsert, if_neg hcb]
                  exact hnp _ _ hlkc hpnil2


/-- Two-block chain `A -> B` used as a concrete witness CFG. -/
def blkA : BasicBlock := BasicBlock.mk "A" [] [] ["B"]

/-- Second block of the witness chain. -/
def blkB : BasicBlock := BasicBlock.mk "B" [] ["A"] []

/-- The witness chain CFG. -/
def chainCFG : CFG := CFG.mk [("A", blkA), ("B", blkB)] "A" "B"

/-- A tiny forward problem over `Finset String`: transfer inserts the
block id, meet is union. -/
def chainProb : DataflowProblem (Finset String) :=
  DataflowProblem.mk "forward" ∅ (fun sets => sets.foldl (· ∪ ·) ∅)
    (fun blk v => insert blk.bid v) [("A", ∅)]

end DF

/-- C7, confirmed.  When the worklist solver terminates normally on a
forward problem over a predecessor/successor-consistent CFG, the returned
maps satisfy the forward dataflow equations: every block with at least
one predecessor has IN(b) = meet of its predecessors' OUT values and
OUT(b) = transfer(b, IN(b)); every block without predecessors keeps its
seeded/initial IN value. -/
theorem C7_forward_fixpoint {α : Type} [DecidableEq α] (fuel : Nat) (cfg : DF.CFG)
    (prob : DF.DataflowProblem α) (rin rout : List (String × α))
    (hdir : prob.direction = "forward")
    (hcons : DF.ConsistentBlocks cfg.blocks)
    (hok : DF.worklist_solve fuel cfg prob = some (Except.ok (rin, rout))) :
    ∀ b blk, List.lookup b cfg.blocks = some blk →
      (blk.preds ≠ [] →
        ∃ vs, blk.preds.mapM (fun p => List.lookup p rout) = some vs ∧
          List.lookup b rin = some (prob.meet vs) ∧
          List.lookup b rout = some (prob.transfer blk (prob.meet vs))) ∧
      (blk.preds = [] → List.lookup b rin = List.lookup b (DF.init_vals cfg prob)) := by
  have hmain := DF.worklist_loop_fixpoint prob cfg.blocks (DF.init_vals cfg prob) hdir hcons
    fuel (cfg.blocks.map Prod.fst) (DF.init_vals cfg prob) (DF.init_vals cfg prob) rin rout
    hok
    (fun b blk hlk hnot _ => absurd (DF.lookup_mem_keys hlk) hnot)
    (fun _ _ _ _ => rfl)
  intro b blk hlk
  exact ⟨fun hp => hmain.1 b blk hlk (by simp) hp, fun hp => hmain.2 b blk hlk hp⟩

/-- Closed witness for `C7_forward_fixpoint`: the chain `A -> B` with the
insert-own-id transfer, solved to the fixpoint. -/
theorem C7_forward_fixpoint_witness :
    ∃ vs, DF.blkB.preds.mapM
        (fun p => List.lookup p [("A", ({"A"} : Finset String)), ("B", {"B", "A"})]) = some vs ∧
      List.lookup "B" [("A", (∅ : Finset String)), ("B", {"A"})] =
        some (DF.chainProb.meet vs) ∧
      List.lookup "B" [("A", ({"A"} : Finset String)), ("B", {"B", "A"})] =
        some (DF.chainProb.transfer DF.blkB (DF.chainProb.meet vs)) :=
  ((C7_forward_fixpoint 10 DF.chainCFG DF.chainProb
      [("A", (∅ : Finset String)), ("B", {"A"})]
      [("A", ({"A"} : Finset String)), ("B", {"B", "A"})]
      rfl (by unfold DF.ConsistentBlocks; decide) rfl) "B" DF.blkB (by decide)).1 (by decide)

/-! ### Reaching definitions (src/lesson4/dataflow_framework.py, lines 95–122) -/

namespace DF

/-- A definition site `(block id, in-block index, variable)`
(`DefSite = Tuple[str, int, str]`). -/
abbrev DefSite := String × Nat × String

/-- Inner loop of `compute_def_sites`: add `(bid, i, v)` to the slot of
`v` for every `v` in one statement's defs. -/
def defsUpd (bid : String) (i : Nat) (df : List String)
    (acc : String → Finset DefSite) : String → Finset DefSite :=
  df.foldl (fun acc3 v => fun w => if w = v then insert (bid, i, v) (acc3 w) else acc3 w) acc

/-- Per-block part of `compute_def_sites`. -/
def blockSites (bid : String) (stmts : List Statement)
    (acc : String → Finset DefSite) : String → Finset DefSite :=
  stmts.enum.foldl (fun acc2 is => defsUpd bid is.1 is.2.defs acc2) acc

/-- `compute_def_sites` (dataflow_framework.py lines 98–103).  The Python
`defaultdict(set)` is a total function with default `∅`. -/
def compute_def_sites (cfg : CFG) : String → Finset DefSite :=
  cfg.blocks.foldl (fun acc bv => blockSites bv.1 bv.2.stmts acc) (fun _ => ∅)

/-- One `for v in s.defs()` step of the `gen_b` construction
(dataflow_framework.py lines 110–113): a later definition of a variable
already `seen` removes the earlier sites of that variable from `gen_b`,
then the fresh site is appended and the variable marked seen. -/
def genStep (bid : String) (i : Nat) (st : List DefSite × List String) (v : String) :
    List DefSite × List String :=
  ((if v ∈ st.2 then st.1.filter (fun site => site.2.2 ≠ v) else st.1) ++ [(bid, i, v)],
    v :: st.2)

/-- The `gen_b` list of one block (dataflow_framework.py lines 109–113). -/
def genList (bid : String) (stmts : List Statement) : List DefSite :=
  (stmts.enum.foldl (fun st is => is.2.defs.foldl (genStep bid is.1) st) ([], [])).1

/-- `gen[bid]` as a set.  (Python's `gen` dict has exactly the block keys;
a missing key, which would be a `KeyError` in Python, is `∅` here — the
transfer function is only ever applied to the CFG's own blocks.) -/
def genSet (cfg : CFG) (bid : String) : Finset DefSite :=
  match List.lookup bid cfg.blocks with
  | some blk => (genList bid blk.stmts).toFinset
  | none => ∅

/-- `kill[bid]` (dataflow_framework.py lines 115–116): all program-wide
sites of the variables in `gen_b`, minus `gen[bid]`. -/
def killSet (cfg : CFG) (bid : String) : Finset DefSite :=
  match List.lookup bid cfg.blocks with
  | some blk =>
    ((genList bid blk.stmts).map (fun site => site.2.2)).foldl
      (fun acc v => acc ∪ compute_def_sites cfg v) ∅ \ (genList bid blk.stmts).toFinset
  | none => ∅

/-- `reaching_definitions_problem` (dataflow_framework.py lines 105–122). -/
def reaching_definitions_problem (cfg : CFG) : DataflowProblem (Finset DefSite) :=
  DataflowProblem.mk "forward" ∅ (fun sets => sets.foldl (· ∪ ·) ∅)
    (fun blk IN => genSet cfg blk.bid ∪ (IN \ killSet cfg blk.bid))
    [(cfg.entry, ∅)]

end DF

namespace DF

theorem mem_lookup_of_nodup {α : Type} :
    ∀ {l : List (String × α)}, (l.map Prod.fst).Nodup →
      ∀ {b : String} {v : α}, (b, v) ∈ l → List.lookup b l = some v := by
  intro l
  induction l with
  | nil => intro _ b v h; cases h
  | cons hd tl ih =>
    intro hnodup b v h
    obtain ⟨k, w⟩ := hd
    rcases List.mem_cons.mp h with h1 | h1
    · obtain ⟨hb, hv⟩ := Prod.mk.injEq .. ▸ h1
      subst hb; subst hv
      simp [List.lookup]
    · rw [List.map_cons] at hnodup
      have hcons := List.nodup_cons.mp hnodup
      have hbk : b ≠ k := by
        intro hEq
        subst hEq
        exact hcons.1 (List.mem_map.mpr ⟨(b, v), h1, rfl⟩)
      have hb : (b == k) = false := beq_eq_false_iff_ne.mpr hbk
      simp only [List.lookup, hb]
      exact ih hcons.2 h1

theorem mem_foldl_union {β : Type} [DecidableEq β] (sets : List (Finset β)) (x : β) :
    x ∈ sets.foldl (· ∪ ·) ∅ ↔ ∃ s ∈ sets, x ∈ s := by
  have hgen : ∀ (l : List (Finset β)) (acc : Finset β),
      x ∈ l.foldl (· ∪ ·) acc ↔ x ∈ acc ∨ ∃ s ∈ l, x ∈ s := by
    intro l
    induction l with
    | nil => intro acc; simp
    | cons s ss ih =>
      intro acc
      rw [List.foldl_cons, ih]
      simp only [Finset.mem_union, List.mem_cons]
      constructor
      · rintro ((h | h) | ⟨t, ht, hx⟩)
        · exact Or.inl h
        · exact Or.inr ⟨s, Or.inl rfl, h⟩
        · exact Or.inr ⟨t, Or.inr ht, hx⟩
      · rintro (h | ⟨t, (rfl | ht), hx⟩)
        · exact Or.inl (Or.inl h)
        · exact Or.inl (Or.inr hx)
        · exact Or.inr ⟨t, ht, hx⟩
  rw [hgen]
  simp

theorem mem_defsUpd (bid : String) (i : Nat) (df : List String) :
    ∀ (acc : String → Finset DefSite) (w : String) (site : DefSite),
      site ∈ defsUpd bid i df acc w ↔ site ∈ acc w ∨ (w ∈ df ∧ site = (bid, i, w)) := by
  induction df with
  | nil => intro acc w site; simp [defsUpd]
  | cons v vs ih =>
    intro acc w site
    rw [show defsUpd bid i (v :: vs) acc =
          defsUpd bid i vs (fun w2 => if w2 = v then insert (bid, i, v) (acc w2) else acc w2)
        from rfl]
    rw [ih]
    by_cases hwv : w = v
    · subst hwv
      simp only [eq_self_iff_true, if_true, Finset.mem_insert, List.mem_cons]
      constructor
      · rintro ((h | h) | ⟨h1, h2⟩)
        · exact Or.inr ⟨Or.inl trivial, h⟩
        · exact Or.inl h
        · exact Or.inr ⟨Or.inr h1, h2⟩
      · rintro (h | ⟨h1 | h1, h2⟩)
        · exact Or.inl (Or.inr h)
        · exact Or.inl (Or.inl h2)
        · exact Or.inr ⟨h1, h2⟩
    · simp only [if_neg hwv, List.mem_cons]
      constructor
      · rintro (h | ⟨h1, h2⟩)
        · exact Or.inl h
        · exact Or.inr ⟨Or.inr h1, h2⟩
      · rintro (h | ⟨h1 | h1, h2⟩)
        · exact Or.inl h
        · exact absurd h1 hwv
        · exact Or.inr ⟨h1, h2⟩

end DF

namespace DF

theorem mem_sitesFold (bid : String) (stmts : List Statement) :
    ∀ (n : Nat) (acc : String → Finset DefSite) (w : String) (site : DefSite),
      site ∈ (List.enumFrom n stmts).foldl
          (fun acc2 is => defsUpd bid is.1 is.2.defs acc2) acc w ↔
        site ∈ acc w ∨ ∃ i s, stmts.get? i = some s ∧ w ∈ s.defs ∧ site = (bid, n + i, w) := by
  induction stmts with
  | nil => intro n acc w site; simp [List.enumFrom]
  | cons s ss ih =>
    intro n acc w site
    rw [show List.enumFrom n (s :: ss) = (n, s) :: List.enumFrom (n + 1) ss from rfl,
      List.foldl_cons, ih, mem_defsUpd]
    constructor
    · rintro ((h | ⟨h1, h2⟩) | ⟨i, t, h1, h2, h3⟩)
      · exact Or.inl h
      · exact Or.inr ⟨0, s, rfl, h1, by simpa using h2⟩
      · exact Or.inr ⟨i + 1, t, by simpa using h1, h2, by rw [h3]; congr 2; omega⟩
    · rintro (h | ⟨i, t, h1, h2, h3⟩)
      · exact Or.inl (Or.inl h)
      · cases i with
        | zero =>
          have ht : s = t := by simpa using h1
          subst ht
          exact Or.inl (Or.inr ⟨h2, by simpa using h3⟩)
        | succ i2 =>
          exact Or.inr ⟨i2, t, by simpa using h1, h2, by rw [h3]; congr 2; omega⟩

theorem mem_blockSites (bid : String) (stmts : List Statement)
    (acc : String → Finset DefSite) (w : String) (site : DefSite) :
    site ∈ blockSites bid stmts acc w ↔
      site ∈ acc w ∨ ∃ i s, stmts.get? i = some s ∧ w ∈ s.defs ∧ site = (bid, i, w) := by
  rw [show blockSites bid stmts acc =
      (List.enumFrom 0 stmts).foldl (fun acc2 is => defsUpd bid is.1 is.2.defs acc2) acc
    from rfl]
  rw [mem_sitesFold]
  simp

theorem mem_blocksFold (blocks : List (String × BasicBlock)) :
    ∀ (acc : String → Finset DefSite) (w : String) (site : DefSite),
      site ∈ (blocks.foldl (fun acc bv => blockSites bv.1 bv.2.stmts acc) acc) w ↔
        site ∈ acc w ∨ ∃ bv ∈ blocks, ∃ i s,
          (bv : String × BasicBlock).2.stmts.get? i = some s ∧ w ∈ s.defs ∧
          site = (bv.1, i, w) := by
  induction blocks with
  | nil => intro acc w site; simp
  | cons bv bvs ih =>
    intro acc w site
    rw [List.foldl_cons, ih, mem_blockSites]
    constructor
    · rintro ((h | ⟨i, s, h1, h2, h3⟩) | ⟨cv, hcv, i, s, h1, h2, h3⟩)
      · exact Or.inl h
      · exact Or.inr ⟨bv, List.mem_cons_self _ _, i, s, h1, h2, h3⟩
      · exact Or.inr ⟨cv, List.mem_cons_of_mem _ hcv, i, s, h1, h2, h3⟩
    · rintro (h | ⟨cv, hcv, i, s, h1, h2, h3⟩)
      · exact Or.inl (Or.inl h)
      · rcases List.mem_cons.mp hcv with h4 | h4
        · subst h4
          exact Or.inl (Or.inr ⟨i, s, h1, h2, h3⟩)
        · exact Or.inr ⟨cv, h4, i, s, h1, h2, h3⟩

/-- Membership characterization of `compute_def_sites`: the slot of `w`
holds exactly the sites `(b, i, w)` of program statements defining `w`. -/
theorem mem_compute_def_sites (cfg : CFG) (hnodup : (cfg.blocks.map Prod.fst).Nodup)
    (w : String) (site : DefSite) :
    site ∈ compute_def_sites cfg w ↔
      ∃ b blk i s, List.lookup b cfg.blocks = some blk ∧ blk.stmts.get? i = some s ∧
        w ∈ s.defs ∧ site = (b, i, w) := by
  rw [show compute_def_sites cfg =
      cfg.blocks.foldl (fun acc bv => blockSites bv.1 bv.2.stmts acc) (fun _ => ∅) from rfl]
  rw [mem_blocksFold]
  simp only [Finset.not_mem_empty, false_or]
  constructor
  · rintro ⟨bv, hbv, i, s, h1, h2, h3⟩
    exact ⟨bv.1, bv.2, i, s, mem_lookup_of_nodup hnodup hbv, h1, h2, h3⟩
  · rintro ⟨b, blk, i, s, h1, h2, h3, h4⟩
    exact ⟨(b, blk), lookup_mem h1, i, s, h2, h3, h4⟩

end DF

namespace DF

/-- Effect of one statement's defs on the `gen_b`/`seen` state: previous
sites of the defined variables are removed, one fresh site per defined
variable is present, and `seen` grows by the defined variables.  Requires
the invariant that every variable with a site in `gen_b` is `seen`. -/
theorem genStep_fold (bid : String) (n : Nat) (df : List String) :
    ∀ (g : List DefSite) (seen : List String),
      (∀ site ∈ g, site.2.2 ∈ seen) →
      (∀ site, site ∈ (df.foldl (genStep bid n) (g, seen)).1 ↔
        (site ∈ g ∧ site.2.2 ∉ df) ∨ (∃ v ∈ df, site = (bid, n, v))) ∧
      (∀ v, v ∈ (df.foldl (genStep bid n) (g, seen)).2 ↔ v ∈ seen ∨ v ∈ df) ∧
      (∀ site ∈ (df.foldl (genStep bid n) (g, seen)).1,
        site.2.2 ∈ (df.foldl (genStep bid n) (g, seen)).2) := by
  induction df with
  | nil =>
    intro g seen hI
    refine ⟨fun site => by simp, fun v => by simp, fun site hs => hI site hs⟩
  | cons v vs ih =>
    intro g seen hI
    rw [show (v :: vs).foldl (genStep bid n) (g, seen) =
        vs.foldl (genStep bid n) (genStep bid n (g, seen) v) from rfl]
    have hg1 : ∀ site, site ∈ (genStep bid n (g, seen) v).1 ↔
        (site ∈ g ∧ site.2.2 ≠ v) ∨ site = (bid, n, v) := by
      intro site
      unfold genStep
      by_cases hvs : v ∈ seen
      · rw [if_pos hvs]
        simp only [List.mem_append, List.mem_filter, List.mem_singleton,
          decide_eq_true_eq]
      · rw [if_neg hvs]
        simp only [List.mem_append, List.mem_singleton]
        constructor
        · rintro (h | h)
          · exact Or.inl ⟨h, fun hEq => hvs (hEq ▸ hI site h)⟩
          · exact Or.inr h
        · rintro (⟨h, _⟩ | h)
          · exact Or.inl h
          · exact Or.inr h
    have hs1 : (genStep bid n (g, seen) v).2 = v :: seen := rfl
    have hI1 : ∀ site ∈ (genStep bid n (g, seen) v).1,
        site.2.2 ∈ (genStep bid n (g, seen) v).2 := by
      intro site hs
      rcases (hg1 site).mp hs with ⟨h1, _⟩ | h1
      · rw [hs1]
        exact List.mem_cons_of_mem _ (hI site h1)
      · rw [hs1, h1]
        exact List.mem_cons_self _ _
    obtain ⟨ihg, ihs, ihI⟩ := ih (genStep bid n (g, seen) v).1 (genStep bid n (g, seen) v).2 hI1
    refine ⟨?_, ?_, ?_⟩
    · intro site
      rw [show vs.foldl (genStep bid n) (genStep bid n (g, seen) v) =
          vs.foldl (genStep bid n)
            ((genStep bid n (g, seen) v).1, (genStep bid n (g, seen) v).2) from rfl]
      rw [ihg site, hg1 site]
      constructor
      · rintro (⟨(⟨h1, h2⟩ | h1), h3⟩ | ⟨v2, h1, h2⟩)
        · exact Or.inl ⟨h1, by simp only [List.mem_cons]; tauto⟩
        · exact Or.inr ⟨v, List.mem_cons_self _ _, h1⟩
        · exact Or.inr ⟨v2, List.mem_cons_of_mem _ h1, h2⟩
      · rintro (⟨h1, h2⟩ | ⟨v2, h1, h2⟩)
        · rw [List.mem_cons] at h2
          push_neg at h2
          exact Or.inl ⟨Or.inl ⟨h1, h2.1⟩, h2.2⟩
        · rcases List.mem_cons.mp h1 with h3 | h3
          · subst h3
            by_cases hvvs : v2 ∈ vs
            · exact Or.inr ⟨v2, hvvs, h2⟩
            · exact Or.inl ⟨Or.inr h2, by rw [h2]; exact hvvs⟩
          · exact Or.inr ⟨v2, h3, h2⟩
    · intro w
      rw [show vs.foldl (genStep bid n) (genStep bid n (g, seen) v) =
          vs.foldl (genStep bid n)
            ((genStep bid n (g, seen) v).1, (genStep bid n (g, seen) v).2) from rfl]
      rw [ihs w, hs1]
      simp only [List.mem_cons]
      tauto
    · intro site hs
      exact ihI site hs

end DF

namespace DF

/-- The fold state `(gen_b, seen)` after scanning a whole block. -/
def genFold (bid : String) (stmts : List Statement) : List DefSite × List String :=
  stmts.enum.foldl (fun st is => is.2.defs.foldl (genStep bid is.1) st) ([], [])

theorem genList_eq_genFold (bid : String) (stmts : List Statement) :
    genList bid stmts = (genFold bid stmts).1 := rfl

/-- Joint characterization of the per-block `gen_b` list and `seen` set:
`gen_b` holds exactly the definition sites not superseded by a later
in-block definition of the same variable; `seen` holds exactly the
variables the block defines. -/
theorem genFold_char (bid : String) (stmts : List Statement) :
    (∀ site : DefSite, site ∈ (genFold bid stmts).1 ↔
      ∃ i s, stmts.get? i = some s ∧ site.2.2 ∈ s.defs ∧ site = (bid, i, site.2.2) ∧
        ∀ j t, i < j → stmts.get? j = some t → site.2.2 ∉ t.defs) ∧
    (∀ v, v ∈ (genFold bid stmts).2 ↔ ∃ i s, stmts.get? i = some s ∧ v ∈ s.defs) := by
  induction stmts using List.reverseRecOn with
  | nil =>
    constructor
    · intro site
      simp [genFold, List.enum]
    · intro v
      simp [genFold, List.enum]
  | append_singleton ss s ih =>
    obtain ⟨ihg, ihs⟩ := ih
    have hI : ∀ site ∈ (genFold bid ss).1, site.2.2 ∈ (genFold bid ss).2 := by
      intro site hs
      obtain ⟨i, t, h1, h2, _, _⟩ := (ihg site).mp hs
      exact (ihs site.2.2).mpr ⟨i, t, h1, h2⟩
    have hfold : genFold bid (ss ++ [s]) =
        s.defs.foldl (genStep bid ss.length) ((genFold bid ss).1, (genFold bid ss).2) := by
      rw [show genFold bid (ss ++ [s]) = (List.enum (ss ++ [s])).foldl
          (fun st is => is.2.defs.foldl (genStep bid is.1) st) ([], []) from rfl]
      rw [show List.enum (ss ++ [s]) = List.enum ss ++ [(ss.length, s)] by
        rw [List.enum_append]; rfl]
      rw [List.foldl_append]
      rfl
    obtain ⟨hg, hs2, _⟩ :=
      genStep_fold bid ss.length s.defs (genFold bid ss).1 (genFold bid ss).2 hI
    constructor
    · intro site
      rw [hfold, hg site, ihg site]
      constructor
      · rintro (⟨⟨i, t, h1, h2, h3, h4⟩, h5⟩ | ⟨v, h1, h2⟩)
        · have hlt : i < ss.length := by
            obtain ⟨hlt, _⟩ := List.get?_eq_some.mp h1
            exact hlt
          refine ⟨i, t, ?_, h2, h3, ?_⟩
          · rw [List.get?_append hlt]
            exact h1
          · intro j t2 hj hget
            by_cases hjlen : j < ss.length
            · exact h4 j t2 hj (by rw [List.get?_append hjlen] at hget; exact hget)
            · by_cases hjeq : j = ss.length
              · subst hjeq
                rw [List.get?_concat_length] at hget
                rw [← Option.some.inj hget]
                exact h5
              · have hge : (ss ++ [s]).length ≤ j := by
                  simp only [List.length_append, List.length_singleton]
                  omega
                rw [List.get?_eq_none.mpr hge] at hget
                cases hget
        · refine ⟨ss.length, s, List.get?_concat_length ss s, ?_, ?_, ?_⟩
          · rw [h2]
            exact h1
          · rw [h2]
          · intro j t2 hj hget
            have hge : (ss ++ [s]).length ≤ j := by
              simp only [List.length_append, List.length_singleton]
              omega
            rw [List.get?_eq_none.mpr hge] at hget
            cases hget
      · rintro ⟨i, t, h1, h2, h3, h4⟩
        by_cases hlt : i < ss.length
        · refine Or.inl ⟨⟨i, t, by rw [List.get?_append hlt] at h1; exact h1, h2, h3, ?_⟩, ?_⟩
          · intro j t2 hj hget
            have hjlt : j < ss.length := by
              obtain ⟨hl, _⟩ := List.get?_eq_some.mp hget
              exact hl
            exact h4 j t2 hj (by rw [List.get?_append hjlt]; exact hget)
          · exact h4 ss.length s hlt (List.get?_concat_length ss s)
        · have hlt2 : i < ss.length + 1 := by
            obtain ⟨hl, _⟩ := List.get?_eq_some.mp h1
            simpa using hl
          have hieq : i = ss.length := by omega
          subst hieq
          rw [List.get?_concat_length] at h1
          have ht : s = t := Option.some.inj h1
          subst ht
          exact Or.inr ⟨site.2.2, h2, h3⟩
    · intro v
      rw [hfold, hs2 v, ihs v]
      constructor
      · rintro (⟨i, t, h1, h2⟩ | h1)
        · have hlt : i < ss.length := by
            obtain ⟨hl, _⟩ := List.get?_eq_some.mp h1
            exact hl
          exact ⟨i, t, by rw [List.get?_append hlt]; exact h1, h2⟩
        · exact ⟨ss.length, s, List.get?_concat_length ss s, h1⟩
      · rintro ⟨i, t, h1, h2⟩
        by_cases hlt : i < ss.length
        · exact Or.inl ⟨i, t, by rw [List.get?_append hlt] at h1; exact h1, h2⟩
        · have hlt2 : i < ss.length + 1 := by
            obtain ⟨hl, _⟩ := List.get?_eq_some.mp h1
            simpa using hl
          have hieq : i = ss.length := by omega
          subst hieq
          rw [List.get?_concat_length] at h1
          have ht : s = t := Option.some.inj h1
          subst ht
          exact Or.inr h2

end DF

namespace DF

theorem exists_last_def (stmts : List Statement) (v : String)
    (h : ∃ i s, stmts.get? i = some s ∧ v ∈ s.defs) :
    ∃ i s, stmts.get? i = some s ∧ v ∈ s.defs ∧
      ∀ j t, i < j → stmts.get? j = some t → v ∉ t.defs := by
  obtain ⟨i0, s0, h1, h2⟩ := h
  have hpb : ∀ i : ℕ,
      ((match stmts.get? i with
        | some s => decide (v ∈ s.defs)
        | none => false) = true) ↔ ∃ s, stmts.get? i = some s ∧ v ∈ s.defs := by
    intro i
    cases hg : stmts.get? i with
    | none => simp
    | some s => simp [hg]
  have hne : ((Finset.range stmts.length).filter
      (fun i => (match stmts.get? i with
        | some s => decide (v ∈ s.defs)
        | none => false) = true)).Nonempty := by
    refine ⟨i0, Finset.mem_filter.mpr ⟨?_, ?_⟩⟩
    · obtain ⟨hl, _⟩ := List.get?_eq_some.mp h1
      exact Finset.mem_range.mpr hl
    · exact (hpb i0).mpr ⟨s0, h1, h2⟩
  set I := (Finset.range stmts.length).filter
    (fun i => (match stmts.get? i with
      | some s => decide (v ∈ s.defs)
      | none => false) = true) with hI
  obtain ⟨_, hmax⟩ := Finset.mem_filter.mp (I.max'_mem hne)
  obtain ⟨s1, hg1, hd1⟩ := (hpb (I.max' hne)).mp hmax
  refine ⟨I.max' hne, s1, hg1, hd1, ?_⟩
  intro j t hj hget hdefs
  have hjI : j ∈ I := by
    refine Finset.mem_filter.mpr ⟨?_, (hpb j).mpr ⟨t, hget, hdefs⟩⟩
    obtain ⟨hl, _⟩ := List.get?_eq_some.mp hget
    exact Finset.mem_range.mpr hl
  have := Finset.le_max' I j hjI
  omega

/-- Membership characterization of `genSet`. -/
theorem mem_genSet (cfg : CFG) (b : String) (blk : BasicBlock)
    (hlk : List.lookup b cfg.blocks = some blk) (site : DefSite) :
    site ∈ genSet cfg b ↔
      ∃ i s, blk.stmts.get? i = some s ∧ site.2.2 ∈ s.defs ∧ site = (b, i, site.2.2) ∧
        ∀ j t, i < j → blk.stmts.get? j = some t → site.2.2 ∉ t.defs := by
  rw [show genSet cfg b = (match List.lookup b cfg.blocks with
      | some blk => (genList b blk.stmts).toFinset
      | none => ∅) from rfl, hlk]
  rw [List.mem_toFinset, genList_eq_genFold]
  exact (genFold_char b blk.stmts).1 site

/-- Membership characterization of `killSet`. -/
theorem mem_killSet (cfg : CFG) (hnodup : (cfg.blocks.map Prod.fst).Nodup)
    (b : String) (blk : BasicBlock)
    (hlk : List.lookup b cfg.blocks = some blk) (site : DefSite) :
    site ∈ killSet cfg b ↔
      (∃ i s, blk.stmts.get? i = some s ∧ site.2.2 ∈ s.defs) ∧
      site ∈ compute_def_sites cfg site.2.2 ∧ site ∉ genSet cfg b := by
  rw [show killSet cfg b = (match List.lookup b cfg.blocks with
      | some blk =>
        ((genList b blk.stmts).map (fun site => site.2.2)).foldl
          (fun acc v => acc ∪ compute_def_sites cfg v) ∅ \ (genList b blk.stmts).toFinset
      | none => ∅) from rfl, hlk]
  rw [Finset.mem_sdiff]
  have hA : site ∈ ((genList b blk.stmts).map (fun site => site.2.2)).foldl
      (fun acc v => acc ∪ compute_def_sites cfg v) ∅ ↔
      ∃ v ∈ (genList b blk.stmts).map (fun site => site.2.2),
        site ∈ compute_def_sites cfg v := by
    rw [show ((genList b blk.stmts).map (fun site => site.2.2)).foldl
        (fun acc v => acc ∪ compute_def_sites cfg v) ∅ =
        (((genList b blk.stmts).map (fun site => site.2.2)).map
          (compute_def_sites cfg)).foldl (· ∪ ·) ∅ by
      simp only [List.foldl_map]]
    rw [mem_foldl_union]
    constructor
    · rintro ⟨S, hS, hx⟩
      obtain ⟨v, hv, rfl⟩ := List.mem_map.mp hS
      exact ⟨v, hv, hx⟩
    · rintro ⟨v, hv, hx⟩
      exact ⟨compute_def_sites cfg v, List.mem_map.mpr ⟨v, hv, rfl⟩, hx⟩
  rw [hA]
  have hvareq : ∀ v, site ∈ compute_def_sites cfg v → site.2.2 = v := by
    intro v hv
    obtain ⟨b2, blk2, i2, s2, _, _, _, h4⟩ := (mem_compute_def_sites cfg hnodup v site).mp hv
    rw [h4]
  have hgen : site ∉ genSet cfg b ↔ site ∉ (genList b blk.stmts).toFinset := by
    rw [show genSet cfg b = (match List.lookup b cfg.blocks with
        | some blk => (genList b blk.stmts).toFinset
        | none => ∅) from rfl, hlk]
  constructor
  · rintro ⟨⟨v, hv, hx⟩, hnot⟩
    have hveq := hvareq v hx
    subst hveq
    obtain ⟨site2, hsite2, hveq2⟩ := List.mem_map.mp hv
    refine ⟨?_, hx, hgen.mpr hnot⟩
    obtain ⟨i, s, h1, h2, _, _⟩ := ((genFold_char b blk.stmts).1 site2).mp
      (genList_eq_genFold b blk.stmts ▸ hsite2)
    exact ⟨i, s, h1, hveq2 ▸ h2⟩
  · rintro ⟨⟨i, s, h1, h2⟩, hx, hnot⟩
    obtain ⟨i2, s2, hg2, hd2, hlast2⟩ := exists_last_def blk.stmts site.2.2 ⟨i, s, h1, h2⟩
    refine ⟨⟨site.2.2, ?_, hx⟩, hgen.mp hnot⟩
    refine List.mem_map.mpr ⟨(b, i2, site.2.2), ?_, rfl⟩
    rw [genList_eq_genFold]
    exact ((genFold_char b blk.stmts).1 (b, i2, site.2.2)).mpr
      ⟨i2, s2, hg2, hd2, rfl, hlast2⟩

/-- One-block example for the C5 witness: `x = const; y = x; x = const2`. -/
def rdExampleCFG : CFG :=
  CFG.mk
    [("B0", BasicBlock.mk "B0"
      [Statement.mk "x = const", Statement.mk "y = x", Statement.mk "x = const2"] [] [])]
    "B0" "B0"

end DF

/-- C5, confirmed.  `reaching_definitions_problem` is a forward problem
with union as meet; per block, `gen` holds exactly a block's own
definition sites not superseded by a later in-block definition of the
same variable; `kill` holds exactly the other program-wide definition
sites of the variables the block defines; and the transfer function is
`transfer(b, IN) = gen(b) ∪ (IN − kill(b))`. -/
theorem C5_reaching_definitions_problem (cfg : DF.CFG)
    (hnodup : (cfg.blocks.map Prod.fst).Nodup) :
    (DF.reaching_definitions_problem cfg).direction = "forward" ∧
    (∀ (sets : List (Finset DF.DefSite)) (x : DF.DefSite),
      x ∈ (DF.reaching_definitions_problem cfg).meet sets ↔ ∃ s ∈ sets, x ∈ s) ∧
    (∀ (blk : DF.BasicBlock) (IN : Finset DF.DefSite),
      (DF.reaching_definitions_problem cfg).transfer blk IN =
        DF.genSet cfg blk.bid ∪ (IN \ DF.killSet cfg blk.bid)) ∧
    (∀ b blk, List.lookup b cfg.blocks = some blk →
      (∀ site : DF.DefSite, site ∈ DF.genSet cfg b ↔
        ∃ i s, blk.stmts.get? i = some s ∧ site.2.2 ∈ s.defs ∧ site = (b, i, site.2.2) ∧
          ∀ j t, i < j → blk.stmts.get? j = some t → site.2.2 ∉ t.defs) ∧
      (∀ site : DF.DefSite, site ∈ DF.killSet cfg b ↔
        (∃ i s, blk.stmts.get? i = some s ∧ site.2.2 ∈ s.defs) ∧
        site ∈ DF.compute_def_sites cfg site.2.2 ∧ site ∉ DF.genSet cfg b)) := by
  refine ⟨rfl, fun sets x => DF.mem_foldl_union sets x, fun blk IN => rfl, ?_⟩
  intro b blk hlk
  exact ⟨DF.mem_genSet cfg b blk hlk, DF.mem_killSet cfg hnodup b blk hlk⟩

/-- Closed witness for `C5_reaching_definitions_problem` on the one-block
example `x = const; y = x; x = const2`. -/
theorem C5_reaching_definitions_problem_witness :
    (DF.reaching_definitions_problem DF.rdExampleCFG).direction = "forward" ∧
    (∀ (sets : List (Finset DF.DefSite)) (x : DF.DefSite),
      x ∈ (DF.reaching_definitions_problem DF.rdExampleCFG).meet sets ↔ ∃ s ∈ sets, x ∈ s) ∧
    (∀ (blk : DF.BasicBlock) (IN : Finset DF.DefSite),
      (DF.reaching_definitions_problem DF.rdExampleCFG).transfer blk IN =
        DF.genSet DF.rdExampleCFG blk.bid ∪ (IN \ DF.killSet DF.rdExampleCFG blk.bid)) ∧
    (∀ b blk, List.lookup b DF.rdExampleCFG.blocks = some blk →
      (∀ site : DF.DefSite, site ∈ DF.genSet DF.rdExampleCFG b ↔
        ∃ i s, blk.stmts.get? i = some s ∧ site.2.2 ∈ s.defs ∧ site = (b, i, site.2.2) ∧
          ∀ j t, i < j → blk.stmts.get? j = some t → site.2.2 ∉ t.defs) ∧
      (∀ site : DF.DefSite, site ∈ DF.killSet DF.rdExampleCFG b ↔
        (∃ i s, blk.stmts.get? i = some s ∧ site.2.2 ∈ s.defs) ∧
        site ∈ DF.compute_def_sites DF.rdExampleCFG site.2.2 ∧
        site ∉ DF.genSet DF.rdExampleCFG b)) :=
  C5_reaching_definitions_problem DF.rdExampleCFG (by decide)

namespace DF

theorem mem_of_getLast?_char {l : List Char} {a : Char} (h : l.getLast? = some a) : a ∈ l := by
  obtain ⟨hne, heq⟩ := List.mem_getLast?_eq_getLast
    (show a ∈ l.getLast? by simp [Option.mem_def, h])
  rw [heq]
  exact List.getLast_mem hne

theorem getLast?_append_right {l1 l2 : List Char} (h : l2 ≠ []) :
    (l1 ++ l2).getLast? = l2.getLast? := List.getLast?_append_of_ne_nil l1 h

theorem getLast?_cons_right {c : Char} {l : List Char} (h : l ≠ []) :
    (c :: l).getLast? = l.getLast? := by
  rw [show c :: l = [c] ++ l from rfl]
  exact getLast?_append_right h

theorem dropWhile_of_head {l : List Char} (hh : ∀ c, l.head? = some c → isPySpace c = false) :
    l.dropWhile isPySpace = l := by
  cases l with
  | nil => rfl
  | cons c cs =>
    rw [List.dropWhile_cons, if_neg]
    rw [hh c rfl]
    simp

/-- `pyStrip` is the identity when the first and last characters are not
whitespace. -/
theorem pyStrip_ends (l : List Char) (hh : ∀ c, l.head? = some c → isPySpace c = false)
    (hl : ∀ c, l.getLast? = some c → isPySpace c = false) :
    pyStrip (String.mk l) = String.mk l := by
  unfold pyStrip
  rw [dropWhile_of_head hh]
  rw [dropWhile_of_head (fun c hc => hl c (by rw [← List.head?_reverse]; exact hc))]
  simp

/-- `pyStrip` drops exactly one leading space when the remainder has
non-whitespace ends. -/
theorem pyStrip_cons_space (l : List Char)
    (hh : ∀ c, l.head? = some c → isPySpace c = false)
    (hl : ∀ c, l.getLast? = some c → isPySpace c = false) :
    pyStrip (String.mk (' ' :: l)) = String.mk l := by
  unfold pyStrip
  rw [List.dropWhile_cons, if_pos (by decide : isPySpace ' ' = true)]
  rw [dropWhile_of_head hh]
  rw [dropWhile_of_head (fun c hc => hl c (by rw [← List.head?_reverse]; exact hc))]
  simp

theorem identStart_not_deref (c : Char) (h : isIdentStart c = true) : c ≠ '*' ∧ c ≠ '[' := by
  constructor <;> (intro hEq; subst hEq; exact absurd h (by decide))

theorem identChars_parts {l : List Char} (h : isIdentChars l = true) :
    l ≠ [] ∧ ∀ c ∈ l, isIdentCont c = true := by
  cases l with
  | nil => exact absurd h (by decide)
  | cons c cs =>
    simp only [isIdentChars, Bool.and_eq_true, List.all_eq_true] at h
    refine ⟨by simp, ?_⟩
    intro x hx
    rcases List.mem_cons.mp hx with h1 | h1
    · rw [h1]; exact identStart_cont c h.1
    · exact h.2 x h1

theorem identChars_head {l : List Char} (h : isIdentChars l = true) :
    ∃ c t, l = c :: t ∧ isIdentStart c = true ∧ ∀ x ∈ t, isIdentCont x = true := by
  cases l with
  | nil => exact absurd h (by decide)
  | cons c cs =>
    simp only [isIdentChars, Bool.and_eq_true, List.all_eq_true] at h
    exact ⟨c, cs, rfl, h.1, fun x hx => h.2 x hx⟩

/-- The replacement pass of `_vars_in` is the identity on identifier
characters and spaces. -/
theorem replace_id_of_words {l : List Char}
    (h : ∀ c ∈ l, isIdentCont c = true ∨ c = ' ') :
    (l.map fun c => if c = '[' ∨ c = ']' ∨ c = '*' then ' ' else c) = l := by
  rw [List.map_congr_left, List.map_id]
  intro c hc
  rcases h c hc with h1 | h1
  · obtain ⟨h2, h3, h4⟩ := identCont_not_bracket c h1
    simp [h2, h3, h4]
  · subst h1
    simp

theorem vars_in_three_words (a op b : String)
    (ha : isIdentChars a.data = true) (hop : isIdentChars op.data = true)
    (hb : isIdentChars b.data = true) :
    vars_in (String.mk (a.data ++ ' ' :: (op.data ++ ' ' :: b.data))) = [a, op, b] := by
  obtain ⟨ca, ta, hA, hca, hta⟩ := identChars_head ha
  obtain ⟨co, to2, hO, hco, hto⟩ := identChars_head hop
  obtain ⟨cb, tb, hB, hcb, htb⟩ := identChars_head hb
  unfold vars_in
  rw [show (String.mk (a.data ++ ' ' :: (op.data ++ ' ' :: b.data))).data
      = a.data ++ ' ' :: (op.data ++ ' ' :: b.data) from rfl]
  rw [replace_id_of_words]
  · rw [hA, hO, hB]
    rw [show (ca :: ta) ++ ' ' :: ((co :: to2) ++ ' ' :: (cb :: tb))
        = (ca :: ta) ++ ' ' :: ((co :: to2) ++ ' ' :: (cb :: tb)) from rfl]
    rw [tokensAux_word ca ta _ hca hta]
    rw [tokensAux_word co to2 _ hco hto]
    rw [tokensAux_word_end cb tb hcb htb]
    simp only [List.map_cons, List.map_nil]
    rw [show String.mk (ca :: ta) = a by rw [← hA]]
    rw [show String.mk (co :: to2) = op by rw [← hO]]
    rw [show String.mk (cb :: tb) = b by rw [← hB]]
  · intro c hc
    rcases List.mem_append.mp hc with h1 | h1
    · exact Or.inl ((identChars_parts ha).2 c h1)
    · rcases List.mem_cons.mp h1 with h2 | h2
      · exact Or.inr h2
      · rcases List.mem_append.mp h2 with h3 | h3
        · exact Or.inl ((identChars_parts hop).2 c h3)
        · rcases List.mem_cons.mp h3 with h4 | h4
          · exact Or.inr h4
          · exact Or.inl ((identChars_parts hb).2 c h4)

end DF

namespace DF

theorem not_eq_of_identCont {l : List Char} (h : ∀ c ∈ l, isIdentCont c = true) :
    ∀ c ∈ l, (decide ¬c = '=') = true := by
  intro c hc
  simp only [decide_not, Bool.not_eq_true']
  rw [decide_eq_false_iff_not]
  exact identCont_ne_eq c (h c hc)

theorem not_space_of_identCont {l : List Char} (h : ∀ c ∈ l, isIdentCont c = true) :
    ∀ c ∈ l, isPySpace c = false := fun c hc => identCont_not_space c (h c hc)

/-- `Statement.uses` of a pseudo-3AC line `d = a op b` built from four
identifiers: the tokens of the right-hand side are `a`, the op mnemonic,
and `b` — the op name is extracted as if it were a variable. -/
theorem uses_binop_line (d a op b : String)
    (hd : isIdentChars d.data = true) (ha : isIdentChars a.data = true)
    (hop : isIdentChars op.data = true) (hb : isIdentChars b.data = true) :
    (Statement.mk (d ++ " = " ++ a ++ " " ++ op ++ " " ++ b)).uses = [a, op, b] := by
  obtain ⟨cd, td, hD, hcd, htd⟩ := identChars_head hd
  obtain ⟨ca, ta, hA, hca, hta⟩ := identChars_head ha
  obtain ⟨cb, tb, hB, hcb, htb⟩ := identChars_head hb
  have hdata : (d ++ " = " ++ a ++ " " ++ op ++ " " ++ b).data
      = d.data ++ ' ' :: '=' :: ' ' :: (a.data ++ ' ' :: (op.data ++ ' ' :: b.data)) := by
    have h3 : (" = " : String).data = [' ', '=', ' '] := rfl
    have h1 : (" " : String).data = [' '] := rfl
    simp only [String.data_append, h3, h1, List.append_assoc, List.cons_append,
      List.nil_append]
  have hR0last : ∀ c, (a.data ++ ' ' :: (op.data ++ ' ' :: b.data)).getLast? = some c →
      isPySpace c = false := by
    intro c hc
    have hassoc : a.data ++ ' ' :: (op.data ++ ' ' :: b.data)
        = (a.data ++ ' ' :: (op.data ++ [' '])) ++ b.data := by
      simp
    rw [hassoc, getLast?_append_right (by rw [hB]; simp)] at hc
    exact not_space_of_identCont (identChars_parts hb).2 c (mem_of_getLast?_char hc)
  have hR0head : ∀ c, (a.data ++ ' ' :: (op.data ++ ' ' :: b.data)).head? = some c →
      isPySpace c = false := by
    intro c hc
    rw [hA] at hc
    simp only [List.cons_append, List.head?_cons] at hc
    rw [← Option.some.inj hc]
    exact identCont_not_space ca (identStart_cont ca hca)
  have hlast : ∀ c, (d ++ " = " ++ a ++ " " ++ op ++ " " ++ b).data.getLast? = some c →
      isPySpace c = false := by
    intro c hc
    rw [hdata] at hc
    have hassoc : d.data ++ ' ' :: '=' :: ' ' :: (a.data ++ ' ' :: (op.data ++ ' ' :: b.data))
        = (d.data ++ [' ', '=', ' ']) ++ (a.data ++ ' ' :: (op.data ++ ' ' :: b.data)) := by
      simp
    rw [hassoc, getLast?_append_right (by rw [hA]; simp)] at hc
    exact hR0last c hc
  have hhead : ∀ c, (d ++ " = " ++ a ++ " " ++ op ++ " " ++ b).data.head? = some c →
      isPySpace c = false := by
    intro c hc
    rw [hdata, hD] at hc
    simp only [List.cons_append, List.head?_cons] at hc
    rw [← Option.some.inj hc]
    exact identCont_not_space cd (identStart_cont cd hcd)
  have hstrip : pyStrip (d ++ " = " ++ a ++ " " ++ op ++ " " ++ b)
      = d ++ " = " ++ a ++ " " ++ op ++ " " ++ b :=
    pyStrip_ends (d ++ " = " ++ a ++ " " ++ op ++ " " ++ b).data hhead hlast
  have hmem : '=' ∈ (d ++ " = " ++ a ++ " " ++ op ++ " " ++ b).data := by
    rw [hdata]
    exact List.mem_append.mpr (Or.inr (by simp))
  have hlhsRaw : splitEqL (d ++ " = " ++ a ++ " " ++ op ++ " " ++ b)
      = String.mk (d.data ++ [' ']) := by
    unfold splitEqL
    rw [hdata]
    rw [takeWhile_append_all _ _ (not_eq_of_identCont (identChars_parts hd).2)]
    rw [List.takeWhile_cons, if_pos (by decide), List.takeWhile_cons, if_neg (by decide)]
  have hlhs : pyStrip (splitEqL (d ++ " = " ++ a ++ " " ++ op ++ " " ++ b)) = d := by
    rw [hlhsRaw]
    exact pyStrip_right_space d.data (by rw [hD]; simp)
      (not_space_of_identCont (identChars_parts hd).2)
  have hderef : startsDeref d = false := by
    unfold startsDeref
    rw [hD]
    obtain ⟨h1, h2⟩ := identStart_not_deref cd hcd
    simp [h1, h2]
  have hrhsRaw : splitEqR (d ++ " = " ++ a ++ " " ++ op ++ " " ++ b)
      = String.mk (' ' :: (a.data ++ ' ' :: (op.data ++ ' ' :: b.data))) := by
    unfold splitEqR
    rw [hdata]
    rw [dropWhile_append_all _ _ (not_eq_of_identCont (identChars_parts hd).2)]
    rw [List.dropWhile_cons, if_pos (by decide), List.dropWhile_cons, if_neg (by decide)]
    rfl
  have hrhs : pyStrip (splitEqR (d ++ " = " ++ a ++ " " ++ op ++ " " ++ b))
      = String.mk (a.data ++ ' ' :: (op.data ++ ' ' :: b.data)) := by
    rw [hrhsRaw]
    exact pyStrip_cons_space _ hR0head hR0last
  simp only [Statement.uses]
  rw [hstrip, if_pos hmem, hlhs, hrhs, hderef]
  rw [if_neg (by simp)]
  exact vars_in_three_words a op b ha hop hb

end DF

/-! ### Bril instructions and `bril_ins_to_line`
(src/lesson4/run_bril_dataflow.py, lines 116–165) -/

namespace Bril

/-- A Bril instruction or label object.  `Option` distinguishes an absent
JSON key from a present-but-empty one (Python `ins.get(...)` defaults
apply only to absent keys).  `defId` models the `_def_id` annotation
added by `assign_def_ids`. -/
structure Ins where
  op : Option String
  dest : Option String
  args : Option (List String)
  labels : Option (List String)
  label : Option String
  defId : Option Nat
deriving DecidableEq, Repr

/-- Python `" ".join(args)`. -/
def joinSpace : List String → String
  | [] => ""
  | [x] => x
  | x :: xs => x ++ " " ++ joinSpace xs

end Bril

namespace RB

/-- The binary/compare/logic ops encoded by `bril_ins_to_line`. -/
def binOps : List String :=
  ["add", "sub", "mul", "div", "eq", "lt", "gt", "le", "ge", "and", "or"]

/-- `bril_ins_to_line` (run_bril_dataflow.py lines 116–165): encode a Bril
instruction into a pseudo-3AC line.  `Except.error` models the Python
`IndexError` on `args[0]` of an argument-less `id`. -/
def bril_ins_to_line (ins : Bril.Ins) : Except String (Option String) :=
  match ins.op with
  | none => Except.ok none
  | some op =>
    let args := ins.args.getD []
    if op = "const" then
      match ins.dest with
      | none => Except.ok none
      | some d => Except.ok (some (d ++ " = const"))
    else if op = "id" then
      match ins.dest with
      | none => Except.ok none
      | some d =>
        match args with
        | [] => Except.error "IndexError"
        | a :: _ => Except.ok (some (d ++ " = " ++ a))
    else if op ∈ binOps then
      match ins.dest with
      | none => Except.ok none
      | some d =>
        Except.ok (some (d ++ " = " ++ (match args with | [] => "" | x :: _ => x) ++ " "
          ++ op ++ " " ++ (match args with | _ :: y :: _ => y | _ => "")))
    else if op = "not" then
      match ins.dest with
      | none => Except.ok none
      | some d =>
        Except.ok (some (d ++ " = " ++ (match args with | [] => "" | x :: _ => x)))
    else if op = "call" then
      match ins.dest with
      | some d => Except.ok (some (d ++ " = " ++ Bril.joinSpace args))
      | none =>
        match args with
        | [] => Except.ok none
        | a :: _ => Except.ok (some ("_ = " ++ a))
    else if op = "br" ∨ op = "jmp" ∨ op = "ret" then
      if op = "br" then
        match args with
        | [] => Except.ok none
        | a :: _ => Except.ok (some ("_brcond = " ++ a))
      else Except.ok none
    else
      match ins.dest with
      | some d => Except.ok (some (d ++ " = " ++ Bril.joinSpace args))
      | none => Except.ok none

end RB

/-- C10, confirmed.  For a Bril value instruction with a binary op and
two identifier arguments, `bril_ins_to_line` embeds the op mnemonic
between the argument names, and `Statement.uses` of the produced line is
exactly `[a, op, b]` — the op name is extracted as if it were a variable,
so use/live sets over the Bril pipeline can contain opcode names. -/
theorem C10_binop_name_in_uses (ins : Bril.Ins) (op d a b : String)
    (hop : ins.op = some op) (hbin : op ∈ RB.binOps)
    (hdest : ins.dest = some d) (hargs : ins.args = some [a, b])
    (hd : DF.isIdentChars d.data = true) (ha : DF.isIdentChars a.data = true)
    (hb : DF.isIdentChars b.data = true) :
    RB.bril_ins_to_line ins = Except.ok (some (d ++ " = " ++ a ++ " " ++ op ++ " " ++ b)) ∧
    (DF.Statement.mk (d ++ " = " ++ a ++ " " ++ op ++ " " ++ b)).uses = [a, op, b] ∧
    op ∈ (DF.Statement.mk (d ++ " = " ++ a ++ " " ++ op ++ " " ++ b)).uses ∧
    a ∈ (DF.Statement.mk (d ++ " = " ++ a ++ " " ++ op ++ " " ++ b)).uses ∧
    b ∈ (DF.Statement.mk (d ++ " = " ++ a ++ " " ++ op ++ " " ++ b)).uses := by
  have hopId : DF.isIdentChars op.data = true := by
    simp only [RB.binOps, List.mem_cons, List.not_mem_nil, or_false] at hbin
    rcases hbin with rfl | rfl | rfl | rfl | rfl | rfl | rfl | rfl | rfl | rfl | rfl <;> decide
  have hopne : op ≠ "const" ∧ op ≠ "id" := by
    simp only [RB.binOps, List.mem_cons, List.not_mem_nil, or_false] at hbin
    rcases hbin with rfl | rfl | rfl | rfl | rfl | rfl | rfl | rfl | rfl | rfl | rfl <;>
      exact ⟨by decide, by decide⟩
  have hline : RB.bril_ins_to_line ins
      = Except.ok (some (d ++ " = " ++ a ++ " " ++ op ++ " " ++ b)) := by
    unfold RB.bril_ins_to_line
    rw [hop]
    simp only [hargs, Option.getD_some, hdest]
    rw [if_neg hopne.1, if_neg hopne.2, if_pos hbin]
  have huses := DF.uses_binop_line d a op b hd ha hopId hb
  refine ⟨hline, huses, ?_, ?_, ?_⟩ <;> (rw [huses]; simp)

/-- Closed witness for `C10_binop_name_in_uses`: `x = p add q`. -/
theorem C10_binop_name_in_uses_witness :
    RB.bril_ins_to_line (Bril.Ins.mk (some "add") (some "x") (some ["p", "q"]) none none none)
      = Except.ok (some ("x" ++ " = " ++ "p" ++ " " ++ "add" ++ " " ++ "q")) ∧
    (DF.Statement.mk ("x" ++ " = " ++ "p" ++ " " ++ "add" ++ " " ++ "q")).uses
      = ["p", "add", "q"] ∧
    "add" ∈ (DF.Statement.mk ("x" ++ " = " ++ "p" ++ " " ++ "add" ++ " " ++ "q")).uses ∧
    "p" ∈ (DF.Statement.mk ("x" ++ " = " ++ "p" ++ " " ++ "add" ++ " " ++ "q")).uses ∧
    "q" ∈ (DF.Statement.mk ("x" ++ " = " ++ "p" ++ " " ++ "add" ++ " " ++ "q")).uses :=
  C10_binop_name_in_uses (Bril.Ins.mk (some "add") (some "x") (some ["p", "q"]) none none none)
    "add" "x" "p" "q" rfl (by decide) rfl rfl (by decide) (by decide) (by decide)

/-- C9, confirmed.  A statement whose (stripped) left-hand side starts
with `*` or `[` defines nothing: `Statement.defs` is empty and
`Statement.uses` collects the names of both sides; consequently such a
statement contributes no definition site anywhere (neither to
`compute_def_sites` nor to any block's `gen`), so it cannot kill prior
reaching definitions of the pointed-to name. -/
theorem C9_deref_lhs_not_def (s : DF.Statement)
    (heq : '=' ∈ (DF.pyStrip s.text).data)
    (hderef : DF.startsDeref (DF.pyStrip (DF.splitEqL (DF.pyStrip s.text))) = true) :
    s.defs = [] ∧
    s.uses.toFinset =
      (DF.vars_in (DF.pyStrip (DF.splitEqL (DF.pyStrip s.text)))).toFinset ∪
      (DF.vars_in (DF.pyStrip (DF.splitEqR (DF.pyStrip s.text)))).toFinset ∧
    (∀ cfg : DF.CFG, (cfg.blocks.map Prod.fst).Nodup →
      ∀ b blk i, List.lookup b cfg.blocks = some blk → blk.stmts.get? i = some s →
        (∀ w v, ((b, i, w) : DF.DefSite) ∉ DF.compute_def_sites cfg v) ∧
        (∀ w, ((b, i, w) : DF.DefSite) ∉ DF.genSet cfg b)) := by
  have hdefs : s.defs = [] := by
    simp only [DF.Statement.defs]
    rw [if_pos heq, if_pos hderef]
  refine ⟨hdefs, ?_, ?_⟩
  · simp only [DF.Statement.uses]
    rw [if_pos heq, if_pos hderef, List.toFinset_append]
  · intro cfg hnodup b blk i hlk hget
    constructor
    · intro w v hmem
      obtain ⟨b2, blk2, i2, s2, hlk2, hget2, hdef2, heqsite⟩ :=
        (DF.mem_compute_def_sites cfg hnodup v ((b, i, w) : DF.DefSite)).mp hmem
      rw [Prod.mk.injEq, Prod.mk.injEq] at heqsite
      obtain ⟨hb2, hi3, hw3⟩ := heqsite
      subst hb2
      subst hi3
      have hblk2 : blk2 = blk := Option.some.inj (hlk2.symm.trans hlk)
      subst hblk2
      have hs2 : s2 = s := Option.some.inj (hget2.symm.trans hget)
      subst hs2
      rw [hdefs] at hdef2
      cases hdef2
    · intro w hmem
      obtain ⟨i2, s2, hget2, hdef2, heqsite, _⟩ :=
        (DF.mem_genSet cfg b blk hlk ((b, i, w) : DF.DefSite)).mp hmem
      rw [Prod.mk.injEq, Prod.mk.injEq] at heqsite
      obtain ⟨_, hi3, _⟩ := heqsite
      rw [← hi3] at hget2
      have hs2 : s2 = s := Option.some.inj (hget2.symm.trans hget)
      subst hs2
      rw [hdefs] at hdef2
      cases hdef2

/-- Closed witness for `C9_deref_lhs_not_def`: the statement `*p = q`. -/
theorem C9_deref_lhs_not_def_witness :
    (DF.Statement.mk "*p = q").defs = [] ∧
    (DF.Statement.mk "*p = q").uses.toFinset =
      (DF.vars_in (DF.pyStrip (DF.splitEqL (DF.pyStrip (DF.Statement.mk "*p = q").text)))).toFinset ∪
      (DF.vars_in (DF.pyStrip (DF.splitEqR (DF.pyStrip (DF.Statement.mk "*p = q").text)))).toFinset ∧
    (∀ cfg : DF.CFG, (cfg.blocks.map Prod.fst).Nodup →
      ∀ b blk i, List.lookup b cfg.blocks = some blk →
        blk.stmts.get? i = some (DF.Statement.mk "*p = q") →
        (∀ w v, ((b, i, w) : DF.DefSite) ∉ DF.compute_def_sites cfg v) ∧
        (∀ w, ((b, i, w) : DF.DefSite) ∉ DF.genSet cfg b)) :=
  C9_deref_lhs_not_def (DF.Statement.mk "*p = q") (by decide) (by decide)

/-! ### Dominators (src/lesson5/dominators.py) -/

namespace Dom

/-- `CFG` (dominators.py lines 6–20): `blocks` maps each node to its
predecessor set (a duplicate-free list in insertion order). -/
structure CFG where
  entry : String
  blocks : List (String × List String)
deriving DecidableEq, Repr

/-- `CFG.succs` (dominators.py lines 22–29) as a function: the successors
of `p` are the nodes that record `p` as a predecessor.  (Python also
materializes empty dict entries; the traversals only consume the sets,
sorting them or testing membership, so the function view is equivalent.) -/
def succsOf (cfg : CFG) (p : String) : List String :=
  (cfg.blocks.filter (fun bv => p ∈ bv.2)).map Prod.fst

/-- The BFS loop of `_reachable_from_entry` (dominators.py lines 31–44),
fuel-indexed; the callers pass fuel that the loop cannot exhaust
(every pop either discards a seen node or grows `seen`, and each growth
enqueues at most `|blocks|` successors). -/
def reachableLoop (succs : String → List String) :
    Nat → List String → List String → List String
  | _, [], seen => seen
  | 0, _ :: _, seen => seen
  | fuel + 1, n :: q, seen =>
    if n ∈ seen then reachableLoop succs fuel q seen
    else reachableLoop succs fuel
      (q ++ (succs n).filter (fun s2 => s2 ∉ seen ++ [n])) (seen ++ [n])

/-- `_reachable_from_entry` (dominators.py lines 31–44): forward BFS over
successors from the entry. -/
def _reachable_from_entry (cfg : CFG) : List String :=
  reachableLoop (succsOf cfg)
    ((cfg.blocks.length + 2) * (cfg.blocks.length + 2)) [cfg.entry] []

/-- The recursive `dfs` of `_reverse_post_order` (dominators.py lines
56–63) on state `(seen, post)`.  Fuel bounds the recursion depth; every
level first marks an unseen node, so depth never exceeds
`|blocks| + 2` and the fuel the callers pass is never exhausted (the
fuel-0 case still records the node so that `post` and `seen` stay in
step). -/
def dfsVisit (succs : String → List String) :
    Nat → String → List String × List String → List String × List String
  | 0, u, st =>
    if u ∈ st.1 then st else (st.1 ++ [u], st.2 ++ [u])
  | fuel + 1, u, st =>
    if u ∈ st.1 then st
    else
      let st2 := (pySorted (succs u)).foldl (fun st3 v => dfsVisit succs fuel v st3)
        (st.1 ++ [u], st.2)
      (st2.1, st2.2 ++ [u])

/-- `_reverse_post_order` (dominators.py lines 49–72): DFS from the
entry, then DFS from every remaining node in sorted order — unreachable
nodes included — and reverse the postorder. -/
def _reverse_post_order (cfg : CFG) : List String :=
  let fuel := cfg.blocks.length + 2
  let st1 := dfsVisit (succsOf cfg) fuel cfg.entry ([], [])
  let st2 := (pySorted (cfg.blocks.map Prod.fst)).foldl
    (fun st u => if u ∈ st.1 then st else dfsVisit (succsOf cfg) fuel u st) st1
  st2.2.reverse

/-- Extensional set equality of duplicate-free lists (Python `set`
equality/inequality). -/
def setEqB (a b : List String) : Bool := a.all (· ∈ b) && b.all (· ∈ a)

/-- One full pass of the `compute_dominators` while-loop (dominators.py
lines 92–106) over the reverse postorder, returning the updated map and
the `changed` flag.  Python raises `KeyError` for a predecessor outside
the map; that path is impossible for CFGs built through `add_edge`, and
the embedding uses the empty set there. -/
def domPass (cfg : CFG) (rpo : List String) (dom : List (String × List String)) :
    List (String × List String) × Bool :=
  rpo.foldl (fun st v =>
    if v = cfg.entry then st
    else
      let preds := (List.lookup v cfg.blocks).getD []
      let new_set :=
        if preds.isEmpty then [v]
        else
          let sets := preds.map (fun p => (List.lookup p st.1).getD [])
          let meet := match sets with
            | [] => []
            | s :: rest => rest.foldl (fun acc t => acc.filter (· ∈ t)) s
          if v ∈ meet then meet else v :: meet
      if setEqB new_set ((List.lookup v st.1).getD []) then st
      else (pyDictInsert v new_set st.1, true)) (dom, false)

/-- The `while changed:` loop of `compute_dominators`, fuel-indexed
(`none` = fuel exhausted before the fixpoint). -/
def domLoop (cfg : CFG) (rpo : List String) :
    Nat → List (String × List String) → Option (List (String × List String))
  | 0, _ => none
  | fuel + 1, dom =>
    match domPass cfg rpo dom with
    | (dom2, false) => some dom2
    | (dom2, true) => domLoop cfg rpo fuel dom2

/-- `compute_dominators` (dominators.py lines 76–107): initialize
`dom[b] = all blocks`, `dom[entry] = {entry}`, then iterate over the
reverse postorder until nothing changes. -/
def compute_dominators (fuel : Nat) (cfg : CFG) :
    Option (List (String × List String)) :=
  let blocks := cfg.blocks.map Prod.fst
  let dom0 := pyDictInsert cfg.entry [cfg.entry] (cfg.blocks.map fun bv => (bv.1, blocks))
  domLoop cfg (_reverse_post_order cfg) fuel dom0

/-- The `max(strict, key=lambda x: len(dom[x]))` fallback (dominators.py
line 123): the first candidate with the largest dominator set. -/
def maxByDomLen (dom : List (String × List String)) : List String → String
  | [] => ""
  | s :: rest =>
    rest.foldl (fun best x =>
      if ((List.lookup x dom).getD []).length > ((List.lookup best dom).getD []).length
      then x else best) s

/-- One entry of `immediate_dominators` (dominators.py lines 109–125):
for a non-entry node, search the strict dominator set for the candidate
whose own dominator set contains every other strict dominator (the
`for d in strict: ... break` loop is `find?`); fall back to the largest
dominator set when the search fails. -/
def idomEntry (dom : List (String × List String)) (entry : String)
    (vD : String × List String) : String × Option String :=
  if vD.1 = entry then (vD.1, none)
  else
    match (vD.2.filter (· ≠ vD.1)).find? (fun d =>
      ((vD.2.filter (· ≠ vD.1)).filter (· ≠ d)).all
        (fun o => o ∈ (List.lookup d dom).getD [])) with
    | some d => (vD.1, some d)
    | none =>
      if (vD.2.filter (· ≠ vD.1)).isEmpty then (vD.1, none)
      else (vD.1, some (maxByDomLen dom (vD.2.filter (· ≠ vD.1))))

/-- `immediate_dominators` (dominators.py lines 109–125). -/
def immediate_dominators (dom : List (String × List String)) (entry : String) :
    List (String × Option String) :=
  dom.map (idomEntry dom entry)

/-- Straight-line three-node chain `A -> B -> C` (predecessor sets). -/
def chain3 : CFG := CFG.mk "A" [("A", []), ("B", ["A"]), ("C", ["B"])]

/-- The dominator sets `compute_dominators` reaches on `chain3`. -/
def chain3Dom : List (String × List String) :=
  [("A", ["A"]), ("B", ["B", "A"]), ("C", ["A", "B", "C"])]

/-- A CFG with an isolated, unreachable node `U`. -/
def unreachCFG : CFG := CFG.mk "A" [("A", []), ("U", [])]

end Dom

/-- C1, counterexample.  On the chain `A -> B -> C`, `compute_dominators`
yields dom(C) = with strict dominators A and B, and `immediate_dominators`
returns idom(C) = B; but the other strict dominator A is not dominated by
B (B is not in dom(A)), refuting the claim that every other member of
dom(v) − v is dominated by idom(v). -/
theorem C1_counterexample :
    Dom.compute_dominators 10 Dom.chain3 = some Dom.chain3Dom ∧
    List.lookup "C" (Dom.immediate_dominators Dom.chain3Dom Dom.chain3.entry)
      = some (some "B") ∧
    "A" ∈ (List.lookup "C" Dom.chain3Dom).getD [] ∧ "A" ≠ "C" ∧ "A" ≠ "B" ∧
    "B" ∉ (List.lookup "A" Dom.chain3Dom).getD [] := by
  refine ⟨by decide, by decide, by decide, by decide, by decide, by decide⟩

/-- C1, amended.  For every non-entry node whose sibling search succeeds,
the returned immediate dominator `d` lies in dom(v) − v and is itself
dominated by every other member of dom(v) − v (the direction is the
reverse of the claim's); the entry is mapped to `none`.  When the search
fails, the largest-dominator-set fallback is returned instead and need
not satisfy the condition. -/
theorem C1_amended (dom : List (String × List String)) (entry v : String)
    (D : List String) (hmem : (v, D) ∈ dom) (hne : v ≠ entry)
    (hsearch : ∃ d ∈ D.filter (· ≠ v),
      (((D.filter (· ≠ v)).filter (· ≠ d)).all
        (fun o => o ∈ (List.lookup d dom).getD [])) = true) :
    Dom.idomEntry dom entry (entry, D) = (entry, none) ∧
    ∃ d, Dom.idomEntry dom entry (v, D) = (v, some d) ∧
      (v, some d) ∈ Dom.immediate_dominators dom entry ∧
      d ∈ D ∧ d ≠ v ∧
      ∀ o ∈ D, o ≠ v → o ≠ d → o ∈ (List.lookup d dom).getD [] := by
  constructor
  · unfold Dom.idomEntry
    rw [if_pos rfl]
  · obtain ⟨d0, hd0mem, hd0p⟩ := hsearch
    have hfind : ∃ d, ((D.filter (· ≠ v)).find? (fun d =>
        ((D.filter (· ≠ v)).filter (· ≠ d)).all
          (fun o => o ∈ (List.lookup d dom).getD []))) = some d := by
      have hsome : (((D.filter (· ≠ v)).find? (fun d =>
          ((D.filter (· ≠ v)).filter (· ≠ d)).all
            (fun o => o ∈ (List.lookup d dom).getD [])))).isSome = true := by
        rw [List.find?_isSome]
        exact ⟨d0, hd0mem, hd0p⟩
      exact Option.isSome_iff_exists.mp hsome
    obtain ⟨d, hd⟩ := hfind
    have hdmem : d ∈ D.filter (· ≠ v) := List.mem_of_find?_eq_some hd
    have hdprop := List.find?_some hd
    have hdD : d ∈ D ∧ d ≠ v := by
      have := List.mem_filter.mp hdmem
      refine ⟨this.1, ?_⟩
      have h2 := this.2
      simp only [decide_eq_true_eq] at h2
      exact h2
    refine ⟨d, ?_, ?_, hdD.1, hdD.2, ?_⟩
    · unfold Dom.idomEntry
      rw [if_neg hne]
      rw [show ((v, D) : String × List String).2 = D from rfl,
        show ((v, D) : String × List String).1 = v from rfl]
      rw [hd]
    · refine List.mem_map.mpr ⟨(v, D), hmem, ?_⟩
      unfold Dom.idomEntry
      rw [if_neg hne]
      rw [show ((v, D) : String × List String).2 = D from rfl,
        show ((v, D) : String × List String).1 = v from rfl]
      rw [hd]
    · intro o hoD hov hod
      have hall := hdprop
      rw [List.all_eq_true] at hall
      have homem : o ∈ (D.filter (· ≠ v)).filter (· ≠ d) := by
        rw [List.mem_filter, List.mem_filter]
        refine ⟨⟨hoD, ?_⟩, ?_⟩ <;> simp [hov, hod]
      have := hall o homem
      simp only [decide_eq_true_eq] at this
      exact this

/-- Closed witness for `C1_amended` on the chain `A -> B -> C` at node
`C`. -/
theorem C1_amended_witness :
    Dom.idomEntry Dom.chain3Dom "A" ("A", ["A", "B", "C"]) = ("A", none) ∧
    ∃ d, Dom.idomEntry Dom.chain3Dom "A" ("C", ["A", "B", "C"]) = ("C", some d) ∧
      ("C", some d) ∈ Dom.immediate_dominators Dom.chain3Dom "A" ∧
      d ∈ ["A", "B", "C"] ∧ d ≠ "C" ∧
      ∀ o ∈ ["A", "B", "C"], o ≠ "C" → o ≠ d →
        o ∈ (List.lookup d Dom.chain3Dom).getD [] :=
  C1_amended Dom.chain3Dom "A" "C" ["A", "B", "C"] (by decide) (by decide) (by decide)

namespace Dom

/-- Structural facts about `dfsVisit`: `seen` and `post` only grow, the
visited node ends up in `seen`, and every node newly added to `seen` is
also appended to `post`. -/
theorem dfsVisit_props (succs : String → List String) :
    ∀ (fuel : Nat) (u : String) (st : List String × List String),
      (∀ x ∈ st.1, x ∈ (dfsVisit succs fuel u st).1) ∧
      (∀ x ∈ st.2, x ∈ (dfsVisit succs fuel u st).2) ∧
      u ∈ (dfsVisit succs fuel u st).1 ∧
      (∀ x, x ∈ (dfsVisit succs fuel u st).1 →
        x ∈ st.1 ∨ x ∈ (dfsVisit succs fuel u st).2) := by
  intro fuel
  induction fuel with
  | zero =>
    intro u st
    by_cases h : u ∈ st.1
    · simp only [dfsVisit, if_pos h]
      exact ⟨fun x hx => hx, fun x hx => hx, h, fun x hx => Or.inl hx⟩
    · simp only [dfsVisit, if_neg h]
      refine ⟨fun x hx => List.mem_append_left _ hx, fun x hx => List.mem_append_left _ hx,
        List.mem_append_right _ (by simp), ?_⟩
      intro x hx
      rcases List.mem_append.mp hx with h1 | h1
      · exact Or.inl h1
      · exact Or.inr (List.mem_append_right _ h1)
  | succ f ih =>
    intro u st
    by_cases h : u ∈ st.1
    · simp only [dfsVisit, if_pos h]
      exact ⟨fun x hx => hx, fun x hx => hx, h, fun x hx => Or.inl hx⟩
    · have hfold : ∀ (l : List String) (st2 : List String × List String),
          (∀ x ∈ st2.1, x ∈ (l.foldl (fun st3 v => dfsVisit succs f v st3) st2).1) ∧
          (∀ x ∈ st2.2, x ∈ (l.foldl (fun st3 v => dfsVisit succs f v st3) st2).2) ∧
          (∀ x, x ∈ (l.foldl (fun st3 v => dfsVisit succs f v st3) st2).1 →
            x ∈ st2.1 ∨ x ∈ (l.foldl (fun st3 v => dfsVisit succs f v st3) st2).2) := by
        intro l
        induction l with
        | nil => intro st2; exact ⟨fun x hx => hx, fun x hx => hx, fun x hx => Or.inl hx⟩
        | cons v vs ihl =>
          intro st2
          obtain ⟨m1, m2, _, m4⟩ := ih v st2
          obtain ⟨f1, f2, f3⟩ := ihl (dfsVisit succs f v st2)
          rw [List.foldl_cons]
          refine ⟨fun x hx => f1 x (m1 x hx), fun x hx => f2 x (m2 x hx), ?_⟩
          intro x hx
          rcases f3 x hx with h1 | h1
          · rcases m4 x h1 with h2 | h2
            · exact Or.inl h2
            · exact Or.inr (f2 x h2)
          · exact Or.inr h1
      obtain ⟨f1, f2, f3⟩ := hfold (pySorted (succs u)) (st.1 ++ [u], st.2)
      simp only [dfsVisit, if_neg h]
      refine ⟨?_, ?_, ?_, ?_⟩
      · intro x hx
        exact f1 x (List.mem_append_left _ hx)
      · intro x hx
        exact List.mem_append_left _ (f2 x hx)
      · exact f1 u (List.mem_append_right _ (by simp))
      · intro x hx
        rcases f3 x hx with h1 | h1
        · rcases List.mem_append.mp h1 with h2 | h2
          · exact Or.inl h2
          · exact Or.inr (List.mem_append_right _ h2)
        · exact Or.inr (List.mem_append_left _ h1)

/-- The outer loop of `_reverse_post_order` behaves like the recursive
`dfs` on each unvisited key. -/
theorem rpoFold_props (succs : String → List String) (fuel : Nat) :
    ∀ (l : List String) (st : List String × List String),
      (∀ x ∈ st.1,
        x ∈ (l.foldl (fun st2 u => if u ∈ st2.1 then st2 else dfsVisit succs fuel u st2) st).1) ∧
      (∀ x ∈ st.2,
        x ∈ (l.foldl (fun st2 u => if u ∈ st2.1 then st2 else dfsVisit succs fuel u st2) st).2) ∧
      (∀ u ∈ l,
        u ∈ (l.foldl (fun st2 u => if u ∈ st2.1 then st2 else dfsVisit succs fuel u st2) st).1) ∧
      (∀ x, x ∈ (l.foldl (fun st2 u => if u ∈ st2.1 then st2 else dfsVisit succs fuel u st2) st).1 →
        x ∈ st.1 ∨
        x ∈ (l.foldl (fun st2 u => if u ∈ st2.1 then st2 else dfsVisit succs fuel u st2) st).2) := by
  intro l
  induction l with
  | nil =>
    intro st
    exact ⟨fun x hx => hx, fun x hx => hx, fun u hu => absurd hu (List.not_mem_nil u),
      fun x hx => Or.inl hx⟩
  | cons v vs ihl =>
    intro st
    obtain ⟨d1, d2, d3, d4⟩ := dfsVisit_props succs fuel v st
    have hstep : ∀ x ∈ st.1, x ∈ (if v ∈ st.1 then st else dfsVisit succs fuel v st).1 := by
      intro x hx
      split
      · exact hx
      · exact d1 x hx
    have hstep2 : ∀ x ∈ st.2, x ∈ (if v ∈ st.1 then st else dfsVisit succs fuel v st).2 := by
      intro x hx
      split
      · exact hx
      · exact d2 x hx
    have hstepv : v ∈ (if v ∈ st.1 then st else dfsVisit succs fuel v st).1 := by
      split
      · assumption
      · exact d3
    have hstep4 : ∀ x, x ∈ (if v ∈ st.1 then st else dfsVisit succs fuel v st).1 →
        x ∈ st.1 ∨ x ∈ (if v ∈ st.1 then st else dfsVisit succs fuel v st).2 := by
      intro x hx
      by_cases hv : v ∈ st.1
      · rw [if_pos hv] at hx
        exact Or.inl hx
      · rw [if_neg hv] at hx
        rcases d4 x hx with h1 | h1
        · exact Or.inl h1
        · rw [if_neg hv]
          exact Or.inr h1
    obtain ⟨f1, f2, f3, f4⟩ := ihl (if v ∈ st.1 then st else dfsVisit succs fuel v st)
    rw [List.foldl_cons]
    refine ⟨fun x hx => f1 x (hstep x hx), fun x hx => f2 x (hstep2 x hx), ?_, ?_⟩
    · intro u hu
      rcases List.mem_cons.mp hu with h1 | h1
      · subst h1
        exact f1 u hstepv
      · exact f3 u h1
    · intro x hx
      rcases f4 x hx with h1 | h1
      · rcases hstep4 x h1 with h2 | h2
        · exact Or.inl h2
        · exact Or.inr (f2 x h2)
      · exact Or.inr h1

end Dom

/-- C2, counterexample.  No pruning happens: on a CFG with an isolated
node `U`, the iteration order `_reverse_post_order` contains `U` even
though `U` is not reachable from the entry (the claim says the iteration
order contains only reachable nodes). -/
theorem C2_counterexample :
    "U" ∈ Dom._reverse_post_order Dom.unreachCFG ∧
    "U" ∉ Dom._reachable_from_entry Dom.unreachCFG ∧
    "U" ≠ Dom.unreachCFG.entry := by
  refine ⟨by decide, by decide, by decide⟩

/-- C2, amended.  `compute_dominators` performs no pruning: its iteration
order `_reverse_post_order` contains every node of the CFG, unreachable
nodes included (reachable nodes first, then the rest in sorted order). -/
theorem C2_amended (cfg : Dom.CFG) :
    ∀ n ∈ cfg.blocks.map Prod.fst, n ∈ Dom._reverse_post_order cfg := by
  intro n hn
  unfold Dom._reverse_post_order
  obtain ⟨d1, d2, d3, d4⟩ :=
    Dom.dfsVisit_props (Dom.succsOf cfg) (cfg.blocks.length + 2) cfg.entry ([], [])
  obtain ⟨f1, f2, f3, f4⟩ := Dom.rpoFold_props (Dom.succsOf cfg) (cfg.blocks.length + 2)
    (pySorted (cfg.blocks.map Prod.fst))
    (Dom.dfsVisit (Dom.succsOf cfg) (cfg.blocks.length + 2) cfg.entry ([], []))
  rw [List.mem_reverse]
  have hnseen := f3 n ((mem_pySorted n (cfg.blocks.map Prod.fst)).mpr hn)
  rcases f4 n hnseen with h1 | h1
  · rcases d4 n h1 with h2 | h2
    · cases h2
    · exact f2 n h2
  · exact h1

/-- Closed witness for `C2_amended`: the unreachable node `U` appears in
the iteration order. -/
theorem C2_amended_witness : "U" ∈ Dom._reverse_post_order Dom.unreachCFG :=
  C2_amended Dom.unreachCFG "U" (by decide)

/-! ### Block splitting and copy-aware reaching definitions
(src/lesson4/reaching_def.py; src/lesson5/run_on_bril.py has a
line-for-line identical `label_positions` / `leaders` /
`block_index_of_pos` / `split_into_blocks` pipeline, with `is_label`
additionally requiring the absence of `op` — the two coincide on Bril
objects, which carry either `label` or `op`, never both). -/

namespace RD

/-- Python set-of-int `add`. -/
def setAdd (x : Nat) (l : List Nat) : List Nat := if x ∈ l then l else l ++ [x]

/-- Insertion sort for `sorted` over numbers. -/
def insertNat (x : Nat) : List Nat → List Nat
  | [] => [x]
  | y :: ys => if y < x then y :: insertNat x ys else x :: y :: ys

/-- Python `sorted` on a list of numbers. -/
def pySortedNat : List Nat → List Nat
  | [] => []
  | x :: xs => insertNat x (pySortedNat xs)

/-- A `defaultdict(list)` append for integer keys. -/
def natDictAppend (k v : Nat) : List (Nat × List Nat) → List (Nat × List Nat)
  | [] => [(k, [v])]
  | (k2, vs) :: rest =>
    if k2 = k then (k2, vs ++ [v]) :: rest else (k2, vs) :: natDictAppend k v rest

/-- `label_positions` (reaching_def.py lines 8–13). -/
def label_positions (instrs : List Bril.Ins) : List (String × Nat) :=
  instrs.enum.foldl (fun pos ie =>
    match ie.2.label with
    | some l => pyDictInsert l ie.1 pos
    | none => pos) []

/-- `ins.get("labels", [None])[0]`: `none` when the key is absent, the
Python `IndexError` when it is present but empty. -/
def leadTarget (ins : Bril.Ins) : Except String (Option String) :=
  match ins.labels with
  | none => Except.ok none
  | some [] => Except.error "IndexError"
  | some (t :: _) => Except.ok (some t)

/-- One instruction of the `leaders` scan (reaching_def.py lines 20–36). -/
def leaderStep (n : Nat) (lblpos : List (String × Nat)) (L : List Nat)
    (i : Nat) (ins : Bril.Ins) : Except String (List Nat) :=
  if ins.op = some "br" then
    Except.ok
      (let L2 := (ins.labels.getD []).foldl (fun acc tgt =>
        match List.lookup tgt lblpos with
        | some p => setAdd p acc
        | none => acc) L
      if i + 1 < n then setAdd (i + 1) L2 else L2)
  else if ins.op = some "jmp" then
    match leadTarget ins with
    | Except.error e => Except.error e
    | Except.ok tgtOpt =>
      Except.ok
        (let L2 := match tgtOpt with
          | some tgt =>
            match List.lookup tgt lblpos with
            | some p => setAdd p L
            | none => L
          | none => L
        if i + 1 < n then setAdd (i + 1) L2 else L2)
  else if ins.label.isSome then Except.ok (setAdd i L)
  else Except.ok L

/-- `leaders` (reaching_def.py lines 15–37): the sorted set of
block-leader indices. -/
def leaders (instrs : List Bril.Ins) (lblpos : List (String × Nat)) :
    Except String (List Nat) :=
  (instrs.enum.foldlM (fun L ie => leaderStep instrs.length lblpos L ie.1 ie.2)
    (if 0 < instrs.length then setAdd 0 [] else [])).map pySortedNat

/-- `block_index_of_pos` inner scan (reaching_def.py lines 89–97). -/
def bipAux (n pos : Nat) : List Nat → Nat → Option Nat
  | [], _ => none
  | [l0], i => if l0 ≤ pos ∧ pos < n then some i else none
  | l0 :: l1 :: rest, i =>
    if l0 ≤ pos ∧ pos < l1 then some i else bipAux n pos (l1 :: rest) (i + 1)

/-- `block_index_of_pos` (reaching_def.py lines 89–97). -/
def block_index_of_pos (leaders_list : List Nat) (instrs : List Bril.Ins)
    (pos : Nat) : Option Nat :=
  bipAux instrs.length pos leaders_list 0

/-- Edge construction for one block (reaching_def.py lines 52–81): a
`jmp`/`br` target absent from the label table is silently skipped. -/
def edgeStep (lblpos : List (String × Nat)) (L : List Nat) (instrs : List Bril.Ins)
    (nblocks : Nat) (edges : List (Nat × List Nat)) (bidx : Nat)
    (block : List Bril.Ins) : Except String (List (Nat × List Nat)) :=
  match block.getLast? with
  | none =>
    Except.ok (if bidx + 1 < nblocks then natDictAppend bidx (bidx + 1) edges else edges)
  | some last =>
    if last.op = some "br" then
      Except.ok ((last.labels.getD []).foldl (fun acc tgt =>
        match List.lookup tgt lblpos with
        | none => acc
        | some tpos =>
          match block_index_of_pos L instrs tpos with
          | some tb => natDictAppend bidx tb acc
          | none => acc) edges)
    else if last.op = some "jmp" then
      match leadTarget last with
      | Except.error e => Except.error e
      | Except.ok tgtOpt =>
        Except.ok (match tgtOpt with
          | none => edges
          | some tgt =>
            match List.lookup tgt lblpos with
            | none => edges
            | some tpos =>
              match block_index_of_pos L instrs tpos with
              | some tb => natDictAppend bidx tb edges
              | none => edges)
    else if last.op = some "ret" then Except.ok edges
    else
      Except.ok (if bidx + 1 < nblocks then natDictAppend bidx (bidx + 1) edges else edges)

/-- Predecessor map from the edge map (reaching_def.py lines 82–86). -/
def buildPreds (edges : List (Nat × List Nat)) : List (Nat × List Nat) :=
  edges.foldl (fun preds uv => uv.2.foldl (fun acc v => natDictAppend v uv.1 acc) preds) []

/-- The materialized block contents (reaching_def.py lines 42–49):
contiguous leader-to-leader ranges with label pseudo-instructions
stripped. -/
def blockChunks (instrs : List Bril.Ins) (L : List Nat) : List (List Bril.Ins) :=
  (List.range L.length).map (fun i =>
    let boundaries := L ++ [instrs.length]
    let start := (boundaries.get? i).getD 0
    let stop := (boundaries.get? (i + 1)).getD 0
    ((instrs.drop start).take (stop - start)).filter (fun ins => ins.label.isNone))

/-- `split_into_blocks` (reaching_def.py lines 39–87): returns
`(blocks, edges, preds)`.  The only failure paths are Python
`IndexError`s on malformed `labels`/`args` lists; an unresolved label is
not an error. -/
def split_into_blocks (instrs : List Bril.Ins) :
    Except String (List (List Bril.Ins) × List (Nat × List Nat) × List (Nat × List Nat)) :=
  match leaders instrs (label_positions instrs) with
  | Except.error e => Except.error e
  | Except.ok L =>
    let blocks := blockChunks instrs L
    match blocks.enum.foldlM (fun edges bb =>
        edgeStep (label_positions instrs) L instrs blocks.length edges bb.1 bb.2) [] with
    | Except.error e => Except.error e
    | Except.ok edges => Except.ok (blocks, edges, buildPreds edges)

end RD

namespace RD

theorem lookup_natDictAppend_ne (k v x : Nat) (l : List (Nat × List Nat)) (h : x ≠ k) :
    List.lookup x (natDictAppend k v l) = List.lookup x l := by
  induction l with
  | nil =>
    have hb : (x == k) = false := beq_eq_false_iff_ne.mpr h
    simp [natDictAppend, List.lookup, hb]
  | cons hd tl ih =>
    obtain ⟨k2, vs⟩ := hd
    by_cases hk : k2 = k
    · subst hk
      have hb : (x == k2) = false := beq_eq_false_iff_ne.mpr h
      simp [natDictAppend, List.lookup, hb]
    · rw [show natDictAppend k v ((k2, vs) :: tl) = (k2, vs) :: natDictAppend k v tl by
        simp [natDictAppend, hk]]
      by_cases hx : x = k2
      · have hb : (x == k2) = true := beq_iff_eq.mpr hx
        simp [List.lookup, hb]
      · have hb : (x == k2) = false := beq_eq_false_iff_ne.mpr hx
        simp [List.lookup, hb, ih]

theorem brFold_preserve (lblpos : List (String × Nat)) (L : List Nat)
    (instrs : List Bril.Ins) (bidx x : Nat) (h : x ≠ bidx) :
    ∀ (tgts : List String) (acc : List (Nat × List Nat)),
      List.lookup x (tgts.foldl (fun acc tgt =>
        match List.lookup tgt lblpos with
        | none => acc
        | some tpos =>
          match block_index_of_pos L instrs tpos with
          | some tb => natDictAppend bidx tb acc
          | none => acc) acc) = List.lookup x acc := by
  intro tgts
  induction tgts with
  | nil => intro acc; rfl
  | cons t ts ih =>
    intro acc
    rw [List.foldl_cons, ih]
    cases h1 : List.lookup t lblpos with
    | none => simp only [h1]
    | some tpos =>
      simp only [h1]
      cases h2 : block_index_of_pos L instrs tpos with
      | none => simp only [h2]
      | some tb =>
        simp only [h2]
        exact lookup_natDictAppend_ne bidx tb x acc h

/-- Every successful `edgeStep` for block `bidx2` leaves the edge lists
of all other blocks untouched. -/
theorem edgeStep_preserve (lblpos : List (String × Nat)) (L : List Nat)
    (instrs : List Bril.Ins) (nblocks : Nat) (edges res : List (Nat × List Nat))
    (bidx2 : Nat) (block : List Bril.Ins)
    (hok : edgeStep lblpos L instrs nblocks edges bidx2 block = Except.ok res)
    (x : Nat) (hx : x ≠ bidx2) : List.lookup x res = List.lookup x edges := by
  unfold edgeStep at hok
  cases hlast : block.getLast? with
  | none =>
    simp only [hlast, Except.ok.injEq] at hok
    rw [← hok]
    split
    · exact lookup_natDictAppend_ne _ _ _ _ hx
    · rfl
  | some last =>
    simp only [hlast] at hok
    by_cases hbr : last.op = some "br"
    · rw [if_pos hbr] at hok
      simp only [Except.ok.injEq] at hok
      rw [← hok]
      exact brFold_preserve lblpos L instrs bidx2 x hx (last.labels.getD []) edges
    · rw [if_neg hbr] at hok
      by_cases hjmp : last.op = some "jmp"
      · rw [if_pos hjmp] at hok
        cases hlt : leadTarget last with
        | error e =>
          simp only [hlt] at hok
          exact Except.noConfusion hok
        | ok tgtOpt =>
          simp only [hlt, Except.ok.injEq] at hok
          rw [← hok]
          cases h1 : tgtOpt with
          | none => simp only [h1]
          | some tgt =>
            simp only [h1]
            cases h2 : List.lookup tgt lblpos with
            | none => simp only [h2]
            | some tpos =>
              simp only [h2]
              cases h3 : block_index_of_pos L instrs tpos with
              | none => simp only [h3]
              | some tb =>
                simp only [h3]
                exact lookup_natDictAppend_ne _ _ _ _ hx
      · rw [if_neg hjmp] at hok
        by_cases hret : last.op = some "ret"
        · rw [if_pos hret] at hok
          simp only [Except.ok.injEq] at hok
          rw [← hok]
        · rw [if_neg hret] at hok
          simp only [Except.ok.injEq] at hok
          rw [← hok]
          split
          · exact lookup_natDictAppend_ne _ _ _ _ hx
          · rfl

/-- A block ending in a `jmp` to a label absent from the table
contributes nothing: the edge map is returned unchanged. -/
theorem edgeStep_missing_jmp (lblpos : List (String × Nat)) (L : List Nat)
    (instrs : List Bril.Ins) (nblocks : Nat) (edges : List (Nat × List Nat))
    (bidx : Nat) (block : List Bril.Ins) (last : Bril.Ins) (tgt : String)
    (rest : List String)
    (hlast : block.getLast? = some last) (hop : last.op = some "jmp")
    (hlbl : last.labels = some (tgt :: rest))
    (hmiss : List.lookup tgt lblpos = none) :
    edgeStep lblpos L instrs nblocks edges bidx block = Except.ok edges := by
  unfold edgeStep
  simp only [hlast]
  rw [if_neg (show ¬ last.op = some "br" by rw [hop]; decide), if_pos hop]
  rw [show leadTarget last = Except.ok (some tgt) from by unfold leadTarget; rw [hlbl]]
  simp only [hmiss]

theorem edges_fold_preserve (lblpos : List (String × Nat)) (L : List Nat)
    (instrs : List Bril.Ins) (nblocks bidx : Nat) :
    ∀ (l : List (Nat × List Bril.Ins)) (edges res : List (Nat × List Nat)),
      l.foldlM (fun e bb => edgeStep lblpos L instrs nblocks e bb.1 bb.2) edges
        = Except.ok res →
      (∀ bb ∈ l, (bb : Nat × List Bril.Ins).1 = bidx →
        ∀ e r, edgeStep lblpos L instrs nblocks e bb.1 bb.2 = Except.ok r →
          List.lookup bidx r = List.lookup bidx e) →
      List.lookup bidx res = List.lookup bidx edges := by
  intro l
  induction l with
  | nil =>
    intro edges res hok _
    rw [List.foldlM_nil] at hok
    have h2 : (Except.ok edges : Except String (List (Nat × List Nat)))
        = Except.ok res := hok
    rw [← Except.ok.inj h2]
  | cons bb bbs ih =>
    intro edges res hok hour
    rw [List.foldlM_cons] at hok
    cases hstep : edgeStep lblpos L instrs nblocks edges bb.1 bb.2 with
    | error e =>
      simp only [hstep] at hok
      exact Except.noConfusion
        (show (Except.error e : Except String (List (Nat × List Nat)))
          = Except.ok res from hok)
    | ok e2 =>
      simp only [hstep] at hok
      have hok2 : bbs.foldlM (fun e bb => edgeStep lblpos L instrs nblocks e bb.1 bb.2) e2
          = Except.ok res := hok
      have h1 := ih e2 res hok2 (fun bb2 h2 => hour bb2 (List.mem_cons_of_mem _ h2))
      rw [h1]
      by_cases hb : bb.1 = bidx
      · exact hour bb (List.mem_cons_self _ _) hb edges e2 hstep
      · exact edgeStep_preserve lblpos L instrs nblocks edges e2 bb.1 bb.2 hstep bidx
          (fun hEq => hb hEq.symm)

end RD

namespace RD

/-- A one-instruction program whose `jmp` targets a label that does not
exist. -/
def badJmpProg : List Bril.Ins :=
  [Bril.Ins.mk (some "jmp") none none (some ["missing"]) none none]

end RD

/-- C3, counterexample.  On a `jmp` to a nonexistent label,
`split_into_blocks` does omit the edge, but it reports nothing: it
returns normally (no exception, no error value) — the missing-label
condition is a silent no-op, contradicting the claim that the condition
is surfaced to the caller. -/
theorem C3_counterexample :
    RD.split_into_blocks RD.badJmpProg
      = Except.ok ([[Bril.Ins.mk (some "jmp") none none (some ["missing"]) none none]],
          [], []) ∧
    (∀ e, RD.split_into_blocks RD.badJmpProg ≠ Except.error e) ∧
    List.lookup 0 ([] : List (Nat × List Nat)) = none := by
  refine ⟨rfl, ?_, rfl⟩
  intro e h
  rw [show RD.split_into_blocks RD.badJmpProg
      = Except.ok ([[Bril.Ins.mk (some "jmp") none none (some ["missing"]) none none]],
          [], []) from rfl] at h
  exact Except.noConfusion h

/-- C3, amended.  A `jmp` whose label target is absent from the label
table is *silently* skipped: `split_into_blocks` returns normally, and
the block ending in that `jmp` has no outgoing edge at all in the
returned edge map — in particular no fall-through edge — but no error is
reported to the caller. -/
theorem C3_amended (instrs : List Bril.Ins) (blocks : List (List Bril.Ins))
    (edges preds : List (Nat × List Nat))
    (hok : RD.split_into_blocks instrs = Except.ok (blocks, edges, preds))
    (bidx : Nat) (block : List Bril.Ins) (last : Bril.Ins) (tgt : String)
    (rest : List String)
    (hget : blocks.get? bidx = some block)
    (hlast : block.getLast? = some last) (hop : last.op = some "jmp")
    (hlbl : last.labels = some (tgt :: rest))
    (hmiss : List.lookup tgt (RD.label_positions instrs) = none) :
    List.lookup bidx edges = none := by
  unfold RD.split_into_blocks at hok
  cases hL : RD.leaders instrs (RD.label_positions instrs) with
  | error e =>
    simp only [hL] at hok
    exact Except.noConfusion hok
  | ok L =>
    simp only [hL] at hok
    cases hF : (RD.blockChunks instrs L).enum.foldlM (fun e bb =>
        RD.edgeStep (RD.label_positions instrs) L instrs
          (RD.blockChunks instrs L).length e bb.1 bb.2) [] with
    | error e =>
      simp only [hF] at hok
      exact Except.noConfusion hok
    | ok edges2 =>
      simp only [hF, Except.ok.injEq, Prod.mk.injEq] at hok
      obtain ⟨hb, he, _⟩ := hok
      have hpres := RD.edges_fold_preserve (RD.label_positions instrs) L instrs
        (RD.blockChunks instrs L).length bidx (RD.blockChunks instrs L).enum [] edges2 hF ?_
      · rw [← he, hpres]
        rfl
      · intro bb hbb hb1 e r hstep
        have hgetbb : (RD.blockChunks instrs L).get? bb.1 = some bb.2 := by
          have : (bb.1, bb.2) ∈ (RD.blockChunks instrs L).enum := by
            rw [show ((bb.1, bb.2) : Nat × List Bril.Ins) = bb from rfl]
            exact hbb
          exact List.mem_enum_iff_get?.mp this
        rw [hb1, hb] at hgetbb
        have hbb2 : bb.2 = block := Option.some.inj (hgetbb.symm.trans hget)
        rw [hb1, hbb2] at hstep
        rw [RD.edgeStep_missing_jmp (RD.label_positions instrs) L instrs
          (RD.blockChunks instrs L).length e bidx block last tgt rest hlast hop hlbl hmiss]
          at hstep
        rw [← Except.ok.inj hstep]

/-- Closed witness for `C3_amended` on the one-`jmp` program. -/
theorem C3_amended_witness : List.lookup 0 ([] : List (Nat × List Nat)) = none :=
  C3_amended RD.badJmpProg
    [[Bril.Ins.mk (some "jmp") none none (some ["missing"]) none none]] [] [] rfl
    0 [Bril.Ins.mk (some "jmp") none none (some ["missing"]) none none]
    (Bril.Ins.mk (some "jmp") none none (some ["missing"]) none none) "missing" []
    rfl rfl rfl rfl rfl

namespace RD

/-- Per-variable origin sets: `var -> set of definition-site ids`.  The
element type is `Option Nat` because Python would put `None` in the set
for an instruction missing the `_def_id` annotation. -/
abbrev VarMap := List (String × Finset (Option Nat))

/-- `assign_def_ids` over one function's instructions, threading the
counter (the Python version mutates the instruction dicts in place and
returns the final counter; the embedding returns both). -/
def assign_def_ids_fn (did : Nat) : List Bril.Ins → List Bril.Ins × Nat
  | [] => ([], did)
  | ins :: rest =>
    match ins.dest with
    | some _ =>
      let r := assign_def_ids_fn (did + 1) rest
      (Bril.Ins.mk ins.op ins.dest ins.args ins.labels ins.label (some did) :: r.1, r.2)
    | none =>
      let r := assign_def_ids_fn did rest
      (ins :: r.1, r.2)

/-- `assign_def_ids` (reaching_def.py lines 100–107). -/
def assign_def_ids (funcs : List (List Bril.Ins)) : List (List Bril.Ins) × Nat :=
  funcs.foldl (fun acc f =>
    let r := assign_def_ids_fn acc.2 f
    (acc.1 ++ [r.1], r.2)) ([], 0)

/-- `union_var_maps` (reaching_def.py lines 109–114): key-wise union. -/
def union_var_maps (maps : List VarMap) : VarMap :=
  maps.foldl (fun out m => m.foldl (fun acc kv =>
    pyDictInsert kv.1 ((List.lookup kv.1 acc).getD ∅ ∪ kv.2) acc) out) []

/-- The per-instruction body of the block scan in `run_copy_aware_rd`
(reaching_def.py lines 127–138): a plain assignment resets the
destination's origin set to its own `_def_id`; `id` copies the source
variable's current origin set; instructions without `op` or `dest` leave
the map unchanged.  `args` present but empty is the Python `IndexError`
of `ins.get("args", [None])[0]`. -/
def rdStep (cur : VarMap) (ins : Bril.Ins) : Except String VarMap :=
  match ins.op, ins.dest with
  | some op, some dest =>
    if op = "id" then
      match ins.args with
      | some [] => Except.error "IndexError"
      | some (src :: _) =>
        Except.ok (pyDictInsert dest ((List.lookup src cur).getD ∅) cur)
      | none => Except.ok (pyDictInsert dest ∅ cur)
    else Except.ok (pyDictInsert dest {ins.defId} cur)
  | _, _ => Except.ok cur

/-- `differs` (reaching_def.py lines 152–158): dict inequality up to set
semantics of the values. -/
def differs (a b : VarMap) : Bool :=
  if ¬ ((a.map Prod.fst).all (· ∈ b.map Prod.fst) ∧
        (b.map Prod.fst).all (· ∈ a.map Prod.fst)) then true
  else a.any (fun kv => ¬ (List.lookup kv.1 b).getD ∅ = kv.2)

/-- `successors_of` (reaching_def.py lines 145–150): invert the
predecessor map on each call (the `nblocks` parameter is unused, as in
the source). -/
def successors_of (b : Nat) (preds : List (Nat × List Nat)) (nblocks : Nat) : List Nat :=
  (List.lookup b (preds.foldl (fun rev vp =>
    vp.2.foldl (fun acc p => natDictAppend p vp.1 acc) rev) [])).getD []

/-- The worklist of `run_copy_aware_rd` (reaching_def.py lines 116–143),
fuel-indexed; `Except.error` models Python `IndexError`s on malformed
block indices or empty `args`. -/
def rdLoop (blocks : List (List Bril.Ins)) (preds : List (Nat × List Nat)) :
    Nat → List Nat → List VarMap → List VarMap →
    Option (Except String (List VarMap × List VarMap))
  | _, [], IN, OUT => some (Except.ok (IN, OUT))
  | 0, _ :: _, _, _ => none
  | fuel + 1, b :: work, IN, OUT =>
    match ((List.lookup b preds).getD []).mapM (fun p => OUT.get? p) with
    | none => some (Except.error "IndexError")
    | some incoming =>
      let INb := union_var_maps incoming
      match blocks.get? b with
      | none => some (Except.error "IndexError")
      | some blk =>
        match blk.foldlM rdStep INb with
        | Except.error e => some (Except.error e)
        | Except.ok cur =>
          match OUT.get? b with
          | none => some (Except.error "IndexError")
          | some OUTb =>
            if differs OUTb cur then
              rdLoop blocks preds fuel (work ++ successors_of b preds blocks.length)
                (IN.set b INb) (OUT.set b cur)
            else rdLoop blocks preds fuel work (IN.set b INb) OUT

/-- `run_copy_aware_rd` (reaching_def.py lines 116–143). -/
def run_copy_aware_rd (fuel : Nat) (blocks : List (List Bril.Ins))
    (preds : List (Nat × List Nat)) :
    Option (Except String (List VarMap × List VarMap)) :=
  rdLoop blocks preds fuel (List.range blocks.length)
    (blocks.map fun _ => []) (blocks.map fun _ => [])

/-- The scenario program: one function, one block,
`x = const; y = x; x = const2`. -/
def scenarioProg : List (List Bril.Ins) :=
  [[Bril.Ins.mk (some "const") (some "x") none none none none,
    Bril.Ins.mk (some "id") (some "y") (some ["x"]) none none none,
    Bril.Ins.mk (some "const") (some "x") none none none none]]

end RD

namespace RD

/-- `scenarioProg` after `assign_def_ids`: site ids 0, 1, 2. -/
def scenarioAnnotated : List Bril.Ins :=
  [Bril.Ins.mk (some "const") (some "x") none none none (some 0),
   Bril.Ins.mk (some "id") (some "y") (some ["x"]) none none (some 1),
   Bril.Ins.mk (some "const") (some "x") none none none (some 2)]

end RD

/-- C6, confirmed.  In the copy-aware analysis, a plain assignment resets
the destination's origin set to the singleton of its own fresh site id,
`x = id y` copies `y`'s current origin set verbatim, and instructions
without `op` or `dest` leave the map unchanged; on the single block
`x = const; y = x; x = const2` the full pipeline maps `x` to the second
x-definition's site id (2) and `y` to the first x-definition's site id
(0). -/
theorem C6_copy_aware_rd :
    (∀ (cur : RD.VarMap) (ins : Bril.Ins) (op d : String),
      ins.op = some op → ins.dest = some d → op ≠ "id" →
      RD.rdStep cur ins = Except.ok (pyDictInsert d {ins.defId} cur)) ∧
    (∀ (cur : RD.VarMap) (ins : Bril.Ins) (d src : String) (rest : List String),
      ins.op = some "id" → ins.dest = some d → ins.args = some (src :: rest) →
      RD.rdStep cur ins = Except.ok (pyDictInsert d ((List.lookup src cur).getD ∅) cur)) ∧
    (∀ (cur : RD.VarMap) (ins : Bril.Ins),
      ins.op = none ∨ ins.dest = none → RD.rdStep cur ins = Except.ok cur) ∧
    RD.assign_def_ids RD.scenarioProg = ([RD.scenarioAnnotated], 3) ∧
    RD.split_into_blocks RD.scenarioAnnotated
      = Except.ok ([RD.scenarioAnnotated], [], []) ∧
    RD.run_copy_aware_rd 3 [RD.scenarioAnnotated] []
      = some (Except.ok ([[]],
          [[("x", ({some 2} : Finset (Option Nat))), ("y", {some 0})]])) ∧
    List.lookup "x" [("x", ({some 2} : Finset (Option Nat))), ("y", {some 0})]
      = some {some 2} ∧
    List.lookup "y" [("x", ({some 2} : Finset (Option Nat))), ("y", {some 0})]
      = some {some 0} := by
  refine ⟨?_, ?_, ?_, rfl, rfl, rfl, rfl, rfl⟩
  · intro cur ins op d hop hdest hne
    simp only [RD.rdStep, hop, hdest]
    rw [if_neg hne]
  · intro cur ins d src rest hop hdest hargs
    simp only [RD.rdStep, hop, hdest, hargs, if_true]
  · intro cur ins h
    rcases h with h | h
    · simp only [RD.rdStep, h]
    · cases hop2 : ins.op with
      | none => simp only [RD.rdStep, hop2]
      | some op2 => simp only [RD.rdStep, hop2, h]

/-- Closed witness for `C6_copy_aware_rd` at concrete instructions. -/
theorem C6_copy_aware_rd_witness :
    RD.rdStep [] (Bril.Ins.mk (some "const") (some "x") none none none (some 0))
      = Except.ok (pyDictInsert "x" {some 0} []) ∧
    RD.rdStep [("x", ({some 0} : Finset (Option Nat)))]
        (Bril.Ins.mk (some "id") (some "y") (some ["x"]) none none (some 1))
      = Except.ok (pyDictInsert "y"
          ((List.lookup "x" [("x", ({some 0} : Finset (Option Nat)))]).getD ∅)
          [("x", ({some 0} : Finset (Option Nat)))]) ∧
    RD.rdStep [] (Bril.Ins.mk none none none none (some "L") none) = Except.ok [] :=
  ⟨C6_copy_aware_rd.1 [] _ "const" "x" rfl rfl (by decide),
   (C6_copy_aware_rd.2.1) _ _ "y" "x" [] rfl rfl rfl,
   (C6_copy_aware_rd.2.2.1) [] _ (Or.inl rfl)⟩

namespace RB

/-- First-pass state of `function_to_blocks` (run_bril_dataflow.py lines
24–61): the block dict, label table, block order, the name counter and
the current block. -/
structure FPState where
  blocks : List (String × List String)
  labels : List (String × String)
  order : List String
  ctr : Nat
  current : String
deriving DecidableEq, Repr

/-- `start_block` (run_bril_dataflow.py lines 32–40). -/
def start_block (st : FPState) : FPState :=
  FPState.mk (pyDictInsert ("B" ++ toString st.ctr) [] st.blocks) st.labels
    (st.order ++ ["B" ++ toString st.ctr]) (st.ctr + 1) ("B" ++ toString st.ctr)

/-- One instruction of the first pass (run_bril_dataflow.py lines
46–60). -/
def fpStep (st : FPState) (ins : Bril.Ins) : Except String FPState :=
  match ins.label with
  | some l =>
    let st2 := if ((List.lookup st.current st.blocks).getD []).isEmpty
      then st else start_block st
    Except.ok (FPState.mk st2.blocks (pyDictInsert l st2.current st2.labels)
      st2.order st2.ctr st2.current)
  | none =>
    match bril_ins_to_line ins with
    | Except.error e => Except.error e
    | Except.ok sOpt =>
      let st2 := match sOpt with
        | some s => FPState.mk
            (pyDictInsert st.current (((List.lookup st.current st.blocks).getD []) ++ [s])
              st.blocks) st.labels st.order st.ctr st.current
        | none => st
      Except.ok (if ins.op = some "br" ∨ ins.op = some "jmp" ∨ ins.op = some "ret"
        then start_block st2 else st2)

/-- The first pass of `function_to_blocks`. -/
def firstPass (instrs : List Bril.Ins) : Except String FPState :=
  instrs.foldlM fpStep (start_block (FPState.mk [] [] [] 0 ""))

/-- Second-pass (terminator re-scan) state (run_bril_dataflow.py lines
69–82). -/
structure SPState where
  idx : Nat
  cur : String
  bterms : List (String × Bril.Ins)
deriving DecidableEq, Repr

/-- One instruction of the terminator re-scan; `order[cur_block_idx]`
out of range is a Python `IndexError`. -/
def spStep (blocks : List (String × List String)) (order : List String)
    (st : SPState) (ins : Bril.Ins) : Except String SPState :=
  match ins.label with
  | some _ =>
    match order.get? st.idx with
    | none => Except.error "IndexError"
    | some name =>
      let idx2 := if ¬ ((List.lookup name blocks).getD []).isEmpty
        then st.idx + 1 else st.idx
      match order.get? idx2 with
      | none => Except.error "IndexError"
      | some name2 => Except.ok (SPState.mk idx2 name2 st.bterms)
  | none =>
    if ins.op = some "br" ∨ ins.op = some "jmp" ∨ ins.op = some "ret" then
      let bterms2 := pyDictInsert st.cur ins st.bterms
      match order.get? (st.idx + 1) with
      | some cur2 => Except.ok (SPState.mk (st.idx + 1) cur2 bterms2)
      | none => Except.ok (SPState.mk (st.idx + 1) st.cur bterms2)
    else Except.ok st

/-- The terminator map `bterms` (run_bril_dataflow.py lines 63–82). -/
def secondPass (instrs : List Bril.Ins) (blocks : List (String × List String))
    (order : List String) : Except String (List (String × Bril.Ins)) :=
  match order with
  | [] => Except.error "IndexError"
  | o0 :: _ => (instrs.foldlM (spStep blocks order) (SPState.mk 0 o0 [])).map
      (fun st => st.bterms)

/-- Fall-through edges for non-terminated blocks (run_bril_dataflow.py
lines 84–88). -/
def fallthrough_edges (order : List String) (bterms : List (String × Bril.Ins)) :
    List (String × String) :=
  order.enum.foldl (fun acc ib =>
    match List.lookup ib.2 bterms with
    | some _ => acc
    | none =>
      if ib.1 + 1 < order.length
      then acc ++ [(ib.2, (order.get? (ib.1 + 1)).getD "")] else acc) []

/-- Explicit terminator edges (run_bril_dataflow.py lines 90–101).  A
`jmp`/`br` target absent from the label table is a Python `KeyError`
(`labels[...]`), surfaced as an error here. -/
def term_edges (labels : List (String × String)) (bterms : List (String × Bril.Ins))
    (edges1 : List (String × String)) : Except String (List (String × String)) :=
  bterms.foldlM (fun acc bt =>
    if bt.2.op = some "jmp" then
      match bt.2.labels with
      | none => Except.error "KeyError"
      | some [] => Except.error "IndexError"
      | some (t :: _) =>
        match List.lookup t labels with
        | none => Except.error "KeyError"
        | some tgt => Except.ok (acc ++ [(bt.1, tgt)])
    else if bt.2.op = some "br" then
      match bt.2.labels with
      | some [t1, t2] =>
        match List.lookup t1 labels, List.lookup t2 labels with
        | some g1, some g2 => Except.ok (acc ++ [(bt.1, g1), (bt.1, g2)])
        | _, _ => Except.error "KeyError"
      | some _ => Except.error "ValueError"
      | none => Except.error "KeyError"
    else Except.ok acc) edges1

/-- `function_to_blocks` (run_bril_dataflow.py lines 21–114): blocks,
edges, entry and the synthetic `EXIT` node. -/
def function_to_blocks (instrs : List Bril.Ins) :
    Except String
      (List (String × List String) × List (String × String) × String × String) :=
  match firstPass instrs with
  | Except.error e => Except.error e
  | Except.ok st =>
    match secondPass instrs st.blocks st.order with
    | Except.error e => Except.error e
    | Except.ok bterms =>
      match term_edges st.labels bterms (fallthrough_edges st.order bterms) with
      | Except.error e => Except.error e
      | Except.ok edges2 =>
        let edges3 := edges2 ++
          (bterms.filter (fun bt => bt.2.op = some "ret")).map (fun bt => (bt.1, "EXIT"))
        let edges4 := if bterms.all (fun bt => ¬ bt.2.op = some "ret") ∧ st.order ≠ []
          then edges3 ++ [((st.order.getLast?).getD "", "EXIT")] else edges3
        Except.ok (pyDictInsert "EXIT" [] st.blocks, edges4,
          (st.order.head?).getD "EMPTY", "EXIT")

end RB

namespace Dom

/-- `CFG.add_block` (dominators.py lines 12–14). -/
def add_block (cfg : CFG) (name : String) : CFG :=
  if name ∈ cfg.blocks.map Prod.fst then cfg
  else CFG.mk cfg.entry (cfg.blocks ++ [(name, [])])

/-- `CFG.add_edge` (dominators.py lines 16–20): record `u` as a
predecessor of `v`. -/
def add_edge (cfg : CFG) (u v : String) : CFG :=
  let c1 := add_block (add_block cfg u) v
  CFG.mk c1.entry
    (pyDictInsert v
      (let old := (List.lookup v c1.blocks).getD []
       if u ∈ old then old else old ++ [u]) c1.blocks)

/-- `cfg_from_blocks` (run_on_bril.py lines 114–123): node names
`B0..B(nb-1)`, no synthetic exit. -/
def cfg_from_blocks (edges : List (Nat × List Nat)) (nb : Nat) : CFG :=
  let names := (List.range nb).map (fun i => "B" ++ toString i)
  let cfg0 := names.foldl add_block
    (CFG.mk (if 0 < nb then "B" ++ toString 0 else "B0") [])
  edges.foldl (fun c uv => uv.2.foldl
    (fun c2 v => add_edge c2 ("B" ++ toString uv.1) ("B" ++ toString v)) c) cfg0

/-- A one-instruction `ret` program. -/
def retProg : List Bril.Ins := [Bril.Ins.mk (some "ret") none none none none none]

end Dom

/-- C8, counterexample.  The lesson5 CFG construction
(`split_into_blocks` + `cfg_from_blocks`) adds no synthetic exit: on the
one-instruction program `ret`, the resulting CFG has only node `B0`, no
`EXIT` node exists, and the `ret` block has no outgoing edge into any
exit. -/
theorem C8_counterexample :
    RD.split_into_blocks Dom.retProg
      = Except.ok ([[Bril.Ins.mk (some "ret") none none none none none]], [], []) ∧
    Dom.cfg_from_blocks [] 1 = Dom.CFG.mk "B0" [("B0", [])] ∧
    "EXIT" ∉ (Dom.cfg_from_blocks [] 1).blocks.map Prod.fst ∧
    Dom.succsOf (Dom.cfg_from_blocks [] 1) "B0" = [] := by
  refine ⟨rfl, by decide, by decide, by decide⟩

/-- C8, amended.  The synthetic-exit behaviour belongs to the lesson4
pipeline only: whenever `function_to_blocks` completes, it adds the
synthetic node `EXIT` to the block map, gives every `ret`-terminated
block an edge into `EXIT`, and, when no terminator-bearing block ends in
`ret`, gives the lexically last block an edge into `EXIT`.  The lesson5
CFG construction adds no exit node. -/
theorem C8_amended (instrs : List Bril.Ins) (st : RB.FPState)
    (bterms : List (String × Bril.Ins)) (edges2 : List (String × String))
    (h1 : RB.firstPass instrs = Except.ok st)
    (h2 : RB.secondPass instrs st.blocks st.order = Except.ok bterms)
    (h3 : RB.term_edges st.labels bterms (RB.fallthrough_edges st.order bterms)
      = Except.ok edges2) :
    ∃ edges4,
      RB.function_to_blocks instrs = Except.ok
        (pyDictInsert "EXIT" [] st.blocks, edges4, (st.order.head?).getD "EMPTY", "EXIT") ∧
      "EXIT" ∈ (pyDictInsert "EXIT" [] st.blocks).map Prod.fst ∧
      (∀ bt ∈ bterms, (bt : String × Bril.Ins).2.op = some "ret" →
        (bt.1, "EXIT") ∈ edges4) ∧
      ((∀ bt ∈ bterms, (bt : String × Bril.Ins).2.op ≠ some "ret") → st.order ≠ [] →
        ((st.order.getLast?).getD "", "EXIT") ∈ edges4) := by
  refine ⟨if bterms.all (fun bt => ¬ bt.2.op = some "ret") ∧ st.order ≠ []
      then (edges2 ++ (bterms.filter (fun bt => bt.2.op = some "ret")).map
          (fun bt => (bt.1, "EXIT"))) ++ [((st.order.getLast?).getD "", "EXIT")]
      else edges2 ++ (bterms.filter (fun bt => bt.2.op = some "ret")).map
          (fun bt => (bt.1, "EXIT")), ?_, ?_, ?_, ?_⟩
  · unfold RB.function_to_blocks
    simp only [h1, h2, h3]
  · exact (mem_alKeys_pyDictInsert "EXIT" "EXIT" [] st.blocks).mpr (Or.inl rfl)
  · intro bt hmem hret
    have hin3 : (bt.1, "EXIT") ∈ edges2 ++
        (bterms.filter (fun bt => bt.2.op = some "ret")).map (fun bt => (bt.1, "EXIT")) := by
      refine List.mem_append_right _ (List.mem_map.mpr ⟨bt, ?_, rfl⟩)
      refine List.mem_filter.mpr ⟨hmem, ?_⟩
      simp [hret]
    split
    · exact List.mem_append_left _ hin3
    · exact hin3
  · intro hall hord
    have hcond : bterms.all (fun bt => ¬ bt.2.op = some "ret") = true := by
      rw [List.all_eq_true]
      intro bt hmem
      simp only [decide_eq_true_eq]
      exact hall bt hmem
    rw [if_pos ⟨hcond, hord⟩]
    exact List.mem_append_right _ (by simp)

/-- Closed witness for `C8_amended` on the program `x = const; ret`. -/
theorem C8_amended_witness :
    ∃ edges4,
      RB.function_to_blocks
          [Bril.Ins.mk (some "const") (some "x") none none none none,
           Bril.Ins.mk (some "ret") none none none none none]
        = Except.ok
            (pyDictInsert "EXIT" []
              (RB.FPState.mk [("B0", ["x = const"]), ("B1", [])] [] ["B0", "B1"] 2
                "B1").blocks,
             edges4,
             (((RB.FPState.mk [("B0", ["x = const"]), ("B1", [])] [] ["B0", "B1"] 2
                "B1").order).head?).getD "EMPTY", "EXIT") ∧
      "EXIT" ∈ (pyDictInsert "EXIT" []
        (RB.FPState.mk [("B0", ["x = const"]), ("B1", [])] [] ["B0", "B1"] 2
          "B1").blocks).map Prod.fst ∧
      (∀ bt ∈ [("B0", Bril.Ins.mk (some "ret") none none none none none)],
        (bt : String × Bril.Ins).2.op = some "ret" → (bt.1, "EXIT") ∈ edges4) ∧
      ((∀ bt ∈ [("B0", Bril.Ins.mk (some "ret") none none none none none)],
          (bt : String × Bril.Ins).2.op ≠ some "ret") →
        (RB.FPState.mk [("B0", ["x = const"]), ("B1", [])] [] ["B0", "B1"] 2
          "B1").order ≠ [] →
        ((((RB.FPState.mk [("B0", ["x = const"]), ("B1", [])] [] ["B0", "B1"] 2
          "B1").order).getLast?).getD "", "EXIT") ∈ edges4) :=
  C8_amended
    [Bril.Ins.mk (some "const") (some "x") none none none none,
     Bril.Ins.mk (some "ret") none none none none none]
    (RB.FPState.mk [("B0", ["x = const"]), ("B1", [])] [] ["B0", "B1"] 2 "B1")
    [("B0", Bril.Ins.mk (some "ret") none none none none none)] [] rfl rfl rfl
